import Mathlib

/-!
Shallow embedding of the distributed dataset-creation engine of
`dataset.py` (class `Dataset`): work-unit enumeration, static round-robin
partitioning, per-key accumulation, local consolidation and the per-key
variable-length gather, together with the shared-reference-store length
check of `_init_shared_arrs`.

Machine arrays are modelled as a flat list of elements plus the product of
the trailing dimensions (`shape[1:]`), so that `len(arr)` is
`flat.length / trailing` and `Gatherv` of flattened buffers is list
concatenation.  Python dictionaries are modelled as insertion-ordered
association lists with unique keys.  Fallible Python code (exceptions)
returns `Except`.
-/

namespace AdcircRom

abbrev Val := Int

/-- A numpy array: flattened contents plus the product of the trailing
dimensions (`shape[1:]`; 1 for a one-dimensional array). -/
structure Arr where
  flat : List Val
  trailing : Nat
deriving DecidableEq

/-- `len(a)` for a numpy array: the first dimension, i.e. the row count. -/
def Arr.rowCount (a : Arr) : Nat := a.flat.length / a.trailing

/-- One value of a ResultRecord: an array or a bare scalar
(`local_data[k] = np.concatenate(v)` vs `np.array(v)` in `create`). -/
inductive Frag where
  | arrF (a : Arr)
  | scalarF (v : Val)
deriving DecidableEq

/-- A ResultRecord: the dict returned by `_extract_storm_data`, as an
insertion-ordered association list. -/
abbrev Record := List (String × Frag)

/-- Python dict lookup on an association list. -/
def lookupKey {α : Type} (l : List (String × α)) (k : String) : Option α :=
  (l.find? (fun p => p.1 = k)).map Prod.snd

/-- `k in d` for a Python dict. -/
def hasKey {α : Type} (l : List (String × α)) (k : String) : Bool :=
  (l.find? (fun p => p.1 = k)).isSome

/-- Python dict item assignment `d[k] = v`: overwrite in place if the key
exists, else append at the end (insertion order). -/
def setItem (r : Record) (k : String) (v : Frag) : Record :=
  if hasKey r k then r.map (fun p => if p.1 = k then (k, v) else p)
  else r ++ [(k, v)]

/-- Errors raised by the embedded code paths. -/
inductive Err where
  | keyError
  | typeError
  | valueError
  | shapeMismatch
  | protocolMismatch
deriving DecidableEq

/-! ## Work-unit enumeration (`create`, lines 208-221) -/

/-- Whether the string contains a dot, i.e. `"." in d` in Python. -/
def containsDot (s : String) : Bool := s.data.contains '.'

/-- Enumeration of storm directories by the coordinator
(`for d in os.listdir(stormsdir): d = stormsdir+"/"+d; if os.path.isdir(d)
and "." not in d: dirs.append(d)`).  The directory listing and the
`os.path.isdir` predicate are inputs. -/
def enumerateDirs (datadir stormsdir : String) (listing : List String)
    (isdir : String → Bool) : List String :=
  let sd := datadir ++ "/" ++ stormsdir
  (listing.filter (fun e => isdir (sd ++ "/" ++ e) && !containsDot (sd ++ "/" ++ e))).map
    (fun e => sd ++ "/" ++ e)

/-- `comm.bcast`: every one of the `w` ranks receives the identical value. -/
def bcast {α : Type} (w : Nat) (x : α) : List α := List.replicate w x

/-! ## Round-robin assignment (`range(rank, len(dirs), size)`) -/

/-- Fuel-driven body of `pyRange`; the fuel bounds the iteration count
(each step advances `start` by at least one, so `stop - start` suffices). -/
def pyRangeAux : Nat → Nat → Nat → Nat → List Nat
  | 0, _, _, _ => []
  | fuel + 1, start, stop, step =>
    if start < stop then start :: pyRangeAux fuel (start + step) stop step
    else []

/-- Python `range(start, stop, step)` for a positive step. -/
def pyRange (start stop step : Nat) : List Nat :=
  if step = 0 then [] else pyRangeAux (stop - start) start stop step

/-! ## Shared reference store (`_init_shared_arrs`, coordinator part) -/

/-- Coordinator part of `_init_shared_arrs`: look up `coastal_dist`,
take its length as `num_nodes`, and fail if any array has a different
length; on success return the variable names and `num_nodes`. -/
def initSharedRoot (mesh_vars : List (String × List Val)) :
    Except Err (List String × Nat) :=
  match lookupKey mesh_vars "coastal_dist" with
  | none => Except.error Err.keyError
  | some arr =>
    let num_nodes := arr.length
    if mesh_vars.all (fun p => p.2.length = num_nodes) then
      Except.ok (mesh_vars.map Prod.fst, num_nodes)
    else Except.error Err.valueError

/-! ## Worker map phase (`create`, lines 231-238) -/

/-- Row count of a fragment (`len(...)` on an array; a scalar collects to
one row at consolidation). -/
def fragRows : Frag → Nat
  | Frag.arrF a => a.rowCount
  | Frag.scalarF _ => 1

/-- `info["storm"] = np.full(len(info["inds"]), i, dtype=int)`: tag the
record with the global unit index, broadcast to the length of the
`"inds"` entry.  Fails (KeyError/TypeError in Python) when `"inds"` is
missing or not an array. -/
def tagStorm (i : Nat) (r : Record) : Option Record :=
  match lookupKey r "inds" with
  | some (Frag.arrF a) =>
      some (setItem r "storm" (Frag.arrF ⟨List.replicate a.rowCount (Int.ofNat i), 1⟩))
  | _ => none

/-- The per-worker accumulator `arrs : defaultdict(list)`, as an
insertion-ordered association list from key to fragment list. -/
abbrev Accum := List (String × List Frag)

/-- `arrs[k].append(v)` on a `defaultdict(list)`: append to the existing
entry, or create a new entry at the end. -/
def accAppend (acc : Accum) (k : String) (v : Frag) : Accum :=
  if hasKey acc k then acc.map (fun p => if p.1 = k then (p.1, p.2 ++ [v]) else p)
  else acc ++ [(k, [v])]

/-- `for k, v in info.items(): arrs[k].append(v)`. -/
def accRecord (acc : Accum) (r : Record) : Accum :=
  r.foldl (fun a p => accAppend a p.1 p.2) acc

/-- One iteration of the unit loop: skip a unit with no data
(`if info is None: print(...); continue`), otherwise tag it with the
storm index and accumulate all its items. -/
def stepUnit (acc : Accum) (i : Nat) (u : Option Record) : Except Err Accum :=
  match u with
  | none => Except.ok acc
  | some r =>
    match tagStorm i r with
    | none => Except.error Err.typeError
    | some r' => Except.ok (accRecord acc r')

/-- The unit loop `for i in range(rank, len(dirs), size): ...` over the
already-assigned (index, extraction result) pairs. -/
def foldUnits (l : List (Nat × Option Record)) (acc : Accum) : Except Err Accum :=
  match l with
  | [] => Except.ok acc
  | (i, u) :: rest =>
    match stepUnit acc i u with
    | Except.error e => Except.error e
    | Except.ok acc' => foldUnits rest acc'

/-- The (index, extraction result) pairs assigned to rank `r` out of `w`
workers: indices `range(r, len(units), w)`.  The list `units` gives the
extraction result of every unit (`None` = missing data). -/
def assignedPairs (units : List (Option Record)) (r w : Nat) :
    List (Nat × Option Record) :=
  (pyRange r units.length w).map (fun i => (i, (units.get? i).getD none))

/-! ## Local consolidation (`create`, lines 241-251) -/

/-- Whether a fragment is an array (`isinstance(v[0], np.ndarray)`). -/
def isArrF : Frag → Bool
  | Frag.arrF _ => true
  | Frag.scalarF _ => false

/-- The flattened contents of a fragment. -/
def fragFlat : Frag → List Val
  | Frag.arrF a => a.flat
  | Frag.scalarF v => [v]

/-- The value of a scalar fragment (only used under a guard that excludes
arrays, where Python would have raised). -/
def fragScalar : Frag → Val
  | Frag.arrF _ => 0
  | Frag.scalarF v => v

/-- Does a fragment agree with trailing size `t`
(`np.concatenate` demands matching trailing dimensions)? -/
def sameTrailing (t : Nat) : Frag → Bool
  | Frag.arrF a => a.trailing = t
  | Frag.scalarF _ => false

/-- Consolidate one key of the accumulator:
`np.concatenate(v)` if `v[0]` is an array, else `np.array(v)`
(a list of scalars).  Mixing kinds or mismatched trailing dimensions is
a numpy error. -/
def consolidate (l : List Frag) : Except Err Arr :=
  match l with
  | [] => Except.error Err.keyError
  | Frag.arrF a :: rest =>
    if rest.all (sameTrailing a.trailing) then
      Except.ok ⟨a.flat ++ (rest.map fragFlat).flatten, a.trailing⟩
    else Except.error Err.valueError
  | Frag.scalarF v :: rest =>
    if rest.all (fun f => isArrF f = false) then
      Except.ok ⟨(Frag.scalarF v :: rest).map fragScalar, 1⟩
    else Except.error Err.valueError

/-- `for k, v in arrs.items(): local_data[k] = ...` -/
def consolidateAll (acc : Accum) : Except Err (List (String × Arr)) :=
  match acc with
  | [] => Except.ok []
  | (k, l) :: rest =>
    match consolidate l with
    | Except.error e => Except.error e
    | Except.ok a =>
      match consolidateAll rest with
      | Except.error e => Except.error e
      | Except.ok r => Except.ok ((k, a) :: r)

/-- The whole map phase of one worker: process the assigned units, then
consolidate the accumulator into the local data dict. -/
def runWorker (units : List (Option Record)) (r w : Nat) :
    Except Err (List (String × Arr)) :=
  match foldUnits (assignedPairs units r w) [] with
  | Except.error e => Except.error e
  | Except.ok acc => consolidateAll acc

/-! ## Per-key gather (`create`, lines 251-270) -/

/-- Python string comparison on the underlying code-point sequences:
lexicographic, by Unicode code point. -/
def charListLe : List Char → List Char → Bool
  | [], _ => true
  | _ :: _, [] => false
  | a :: as, b :: bs =>
    if a.toNat < b.toNat then true
    else if b.toNat < a.toNat then false
    else charListLe as bs

/-- Python `a <= b` on strings. -/
def strLeB (a b : String) : Bool := charListLe a.data b.data

/-- The order in which Python `sorted` compares strings. -/
def strLe (a b : String) : Prop := strLeB a b = true

instance : DecidableRel strLe := fun a b => instDecidableEqBool (strLeB a b) true

/-- `keys = sorted(list(local_data.keys()))`: lexicographic sort of the
key names of a local data dict. -/
def sortedKeys (ld : List (String × Arr)) : List String :=
  List.insertionSort strLe (ld.map Prod.fst)

/-- One per-key gather round, given each rank's local array for the key
(rank 0 first).  The coordinator computes `counts` as a NumPy array from
the length exchange, so `buf_shape[0] = sum(counts)` is an `np.int64`
and `flatcounts = recvbuf.size // buf_shape[0] * counts` never raises:
when every rank reports zero rows, the NumPy integer division by zero
emits a RuntimeWarning and yields 0, so `flatcounts` is all zeros, the
`Gatherv` moves nothing, and a zero-row array is stored.  Otherwise the
division yields the trailing size of the coordinator array, so each
rank's slot holds `rowCount * trailing` elements; `Gatherv` then
concatenates the flattened buffers in increasing-rank order, and a rank
whose flattened length does not fill its slot exactly is a fatal shape
mismatch.  The result keeps the trailing shape of the coordinator array
(`recvbuf.reshape(buf_shape)`). -/
def gatherKey (locals : List Arr) : Except Err Arr :=
  match locals with
  | [] => Except.error Err.protocolMismatch
  | root :: _ =>
    if locals.all (fun a => a.flat.length = a.rowCount * root.trailing) then
      Except.ok ⟨(locals.map Arr.flat).flatten, root.trailing⟩
    else Except.error Err.shapeMismatch

/-- Each rank's local array for key `k`; `none` when some rank lacks the
key (its key loop would never issue the matching collective). -/
def collectKey (locals : List (List (String × Arr))) (k : String) :
    Option (List Arr) :=
  locals.mapM (fun ld => lookupKey ld k)

/-- Gather the listed keys in order, accumulating the coordinator dict
`data`. -/
def gatherKeys (ks : List String) (locals : List (List (String × Arr))) :
    Except Err (List (String × Arr)) :=
  match ks with
  | [] => Except.ok []
  | k :: rest =>
    match collectKey locals k with
    | none => Except.error Err.protocolMismatch
    | some arrs =>
      match gatherKey arrs with
      | Except.error e => Except.error e
      | Except.ok a =>
        match gatherKeys rest locals with
        | Except.error e => Except.error e
        | Except.ok d => Except.ok ((k, a) :: d)

/-- The gather phase: every rank loops over its own sorted key list and
issues one collective per key, so the collectives only match when all
ranks hold the identical sorted key sequence; otherwise the job
deadlocks or corrupts (modelled as a protocol error). -/
def gatherAll (locals : List (List (String × Arr))) :
    Except Err (List (String × Arr)) :=
  match locals with
  | [] => Except.error Err.protocolMismatch
  | rootLD :: _ =>
    if locals.all (fun ld => sortedKeys ld = sortedKeys rootLD) then
      gatherKeys (sortedKeys rootLD) locals
    else Except.error Err.protocolMismatch

/-- The whole of `create` after enumeration, for `w` workers over the
given per-unit extraction results: every worker runs the map phase and
local consolidation, then all participate in the per-key gather. -/
def createRun (units : List (Option Record)) (w : Nat) :
    Except Err (List (String × Arr)) :=
  match (List.range w).mapM (fun r => runWorker units r w) with
  | Except.error e => Except.error e
  | Except.ok locals => gatherAll locals

/-! ## Row provenance (specification-side definitions)

`specRowLabels` follows the words of the specification: the unit label
of each row of a gathered key, in gathered order — ranks in increasing
order, each rank its assigned units in processing order, each
contributing unit its rows for that key. -/

/-- The successful (unit index, record) pairs of a pair list, in order. -/
def succPairs (pairs : List (Nat × Option Record)) : List (Nat × Record) :=
  pairs.filterMap (fun p => (p.2).map (fun rec => (p.1, rec)))

/-- The successful (unit index, record) pairs of rank `r`. -/
def workerSucc (units : List (Option Record)) (w r : Nat) : List (Nat × Record) :=
  succPairs (assignedPairs units r w)

/-- The successful (unit index, record) pairs in gathered row order:
ranks in increasing order, each rank its assigned units in order. -/
def processOrder (units : List (Option Record)) (w : Nat) :
    List (Nat × Record) :=
  ((List.range w).map (fun r => workerSucc units w r)).flatten

/-- The records actually accumulated by a worker: the storm-tagged
records of the successful units, in processing order. -/
def taggedOf (pairs : List (Nat × Option Record)) : List Record :=
  pairs.filterMap (fun p => (p.2).bind (tagStorm p.1))

/-- The fragment list a record list contributes to one key. -/
def keyFrags (k : String) (recs : List Record) : List Frag :=
  recs.filterMap (fun r => lookupKey r k)

/-- An accumulator holding, for each key of `ks`, the fragments of the
given records in order. -/
def columns (ks : List String) (recs : List Record) : Accum :=
  ks.map (fun k => (k, keyFrags k recs))

/-- Hypothesis predicate: the record owns a nonempty `"inds"` array
(which is what lets `np.full(len(info["inds"]), i)` succeed and produce
at least one storm row). -/
def indsOk (rec : Record) : Bool :=
  match lookupKey rec "inds" with
  | some (Frag.arrF a) => decide (0 < a.rowCount)
  | _ => false

/-- Hypothesis predicate: the fragment is an array of trailing size `t`
whose flattened length is exactly `rowCount * t`. -/
def fragOk (t : Nat) : Frag → Bool
  | Frag.arrF a => decide (a.trailing = t) && decide (a.flat.length = a.rowCount * t)
  | Frag.scalarF _ => false

/-- The trailing size of each gathered key when the per-key trailing
sizes of the extractor records are given by `T`: the synthetic storm key
is one-dimensional. -/
def trailingOf (T : String → Nat) (q : String) : Nat :=
  if q = "storm" then 1 else T q

/-- The local array rank `r` consolidates for key `q` (uniform-record
runs): the concatenated fragment flats of its tagged records. -/
def workerKeyArr (units : List (Option Record)) (w : Nat) (T : String → Nat)
    (r : Nat) (q : String) : Arr :=
  ⟨((keyFrags q (taggedOf (assignedPairs units r w))).map fragFlat).flatten,
    trailingOf T q⟩

/-- The gathered global array for key `q` (uniform-record runs): the
rank-order concatenation of the per-rank local flats. -/
def gatherSpecArr (units : List (Option Record)) (w : Nat) (T : String → Nat)
    (q : String) : Arr :=
  ⟨((List.range w).map (fun r => (workerKeyArr units w T r q).flat)).flatten,
    trailingOf T q⟩

/-- Row count a record contributes to key `k` (zero when absent). -/
def rowsOfKey (k : String) (r : Record) : Nat :=
  match lookupKey r k with
  | some f => fragRows f
  | none => 0

/-- Modelled from the spec: the unit index that produced each row of key
`k`, in gathered row order. -/
def specRowLabels (units : List (Option Record)) (w : Nat) (k : String) :
    List Val :=
  ((processOrder units w).map
    (fun p => List.replicate (rowsOfKey k p.2) (Int.ofNat p.1))).flatten

/-! ## Helper lemmas -/

theorem lookupKey_eq_none_iff {α : Type} (l : List (String × α)) (k : String) :
    lookupKey l k = none ↔ k ∉ l.map Prod.fst := by
  unfold lookupKey
  rw [Option.map_eq_none', List.find?_eq_none]
  constructor
  · intro h hk
    obtain ⟨p, hp, hfst⟩ := List.mem_map.mp hk
    exact absurd (by simpa using hfst) (by simpa using h p hp)
  · intro h p hp
    simp only [decide_eq_true_eq]
    intro hfst
    exact h (List.mem_map.mpr ⟨p, hp, hfst⟩)

theorem charListLe_total (x y : List Char) :
    charListLe x y = true ∨ charListLe y x = true := by
  induction x generalizing y with
  | nil => left; rfl
  | cons a as ih =>
    cases y with
    | nil => right; rfl
    | cons b bs =>
      by_cases hab : a.toNat < b.toNat
      · left; simp [charListLe, hab]
      · by_cases hba : b.toNat < a.toNat
        · right; simp [charListLe, hba]
        · rcases ih bs with h | h
          · left; simpa [charListLe, hab, hba] using h
          · right; simpa [charListLe, hab, hba] using h

theorem charListLe_trans {x y z : List Char} (hxy : charListLe x y = true)
    (hyz : charListLe y z = true) : charListLe x z = true := by
  induction x generalizing y z with
  | nil => rfl
  | cons a as ih =>
    cases y with
    | nil => simp [charListLe] at hxy
    | cons b bs =>
      cases z with
      | nil => simp [charListLe] at hyz
      | cons c cs =>
        simp only [charListLe] at hxy hyz ⊢
        by_cases hab : a.toNat < b.toNat
        · by_cases hbc : b.toNat < c.toNat
          · rw [if_pos (by omega : a.toNat < c.toNat)]
          · by_cases hcb : c.toNat < b.toNat
            · rw [if_neg hbc, if_pos hcb] at hyz
              simp at hyz
            · rw [if_pos (by omega : a.toNat < c.toNat)]
        · by_cases hba : b.toNat < a.toNat
          · rw [if_neg hab, if_pos hba] at hxy
            simp at hxy
          · by_cases hbc : b.toNat < c.toNat
            · rw [if_pos (by omega : a.toNat < c.toNat)]
            · by_cases hcb : c.toNat < b.toNat
              · rw [if_neg hbc, if_pos hcb] at hyz
                simp at hyz
              · rw [if_neg (by omega : ¬ a.toNat < c.toNat),
                  if_neg (by omega : ¬ c.toNat < a.toNat)]
                rw [if_neg hab, if_neg hba] at hxy
                rw [if_neg hbc, if_neg hcb] at hyz
                exact ih hxy hyz

theorem charListLe_antisymm {x y : List Char} (hxy : charListLe x y = true)
    (hyx : charListLe y x = true) : x = y := by
  induction x generalizing y with
  | nil =>
    cases y with
    | nil => rfl
    | cons b bs => simp [charListLe] at hyx
  | cons a as ih =>
    cases y with
    | nil => simp [charListLe] at hxy
    | cons b bs =>
      simp only [charListLe] at hxy hyx
      by_cases hab : a.toNat < b.toNat
      · rw [if_neg (by omega : ¬ b.toNat < a.toNat), if_pos hab] at hyx
        simp at hyx
      · by_cases hba : b.toNat < a.toNat
        · rw [if_neg hab, if_pos hba] at hxy
          simp at hxy
        · have h3 : a.toNat = b.toNat := by omega
          have hchar : a = b := Char.ext (UInt32.toNat.inj h3)
          rw [if_neg hab, if_neg hba] at hxy
          rw [if_neg hba, if_neg hab] at hyx
          rw [hchar]
          exact congrArg (List.cons b) (ih hxy hyx)

theorem strLe_total (a b : String) : strLe a b ∨ strLe b a :=
  charListLe_total a.data b.data

theorem strLe_trans {a b c : String} (h1 : strLe a b) (h2 : strLe b c) : strLe a c :=
  charListLe_trans h1 h2

theorem strLe_antisymm {a b : String} (h1 : strLe a b) (h2 : strLe b a) : a = b :=
  String.ext (charListLe_antisymm h1 h2)

theorem pyRangeAux_mem {step : Nat} (hstep : 0 < step) :
    ∀ (fuel start stop : Nat), stop ≤ start + fuel →
      ∀ i, (i ∈ pyRangeAux fuel start stop step ↔
        (start ≤ i ∧ i < stop ∧ (i - start) % step = 0)) := by
  intro fuel
  induction fuel with
  | zero =>
    intro start stop h i
    simp only [pyRangeAux, List.not_mem_nil, false_iff]
    omega
  | succ fuel ih =>
    intro start stop h i
    simp only [pyRangeAux]
    by_cases hlt : start < stop
    · rw [if_pos hlt, List.mem_cons, ih (start + step) stop (by omega)]
      constructor
      · rintro (rfl | ⟨h1, h2, h3⟩)
        · exact ⟨Nat.le_refl i, hlt, by simp⟩
        · refine ⟨by omega, h2, ?_⟩
          have heq : i - start = (i - (start + step)) + step := by omega
          rw [heq, Nat.add_mod_right]
          exact h3
      · rintro ⟨h1, h2, h3⟩
        by_cases heq : i = start
        · exact Or.inl heq
        · right
          have hdvd : step ∣ (i - start) := Nat.dvd_of_mod_eq_zero h3
          have hge : step ≤ i - start := Nat.le_of_dvd (by omega) hdvd
          refine ⟨by omega, h2, ?_⟩
          have heq2 : i - start = (i - (start + step)) + step := by omega
          rw [heq2, Nat.add_mod_right] at h3
          exact h3
    · rw [if_neg hlt]
      simp only [List.not_mem_nil, false_iff]
      omega

theorem pyRange_mem {start stop step : Nat} (hstep : 0 < step) (i : Nat) :
    i ∈ pyRange start stop step ↔
      (start ≤ i ∧ i < stop ∧ (i - start) % step = 0) := by
  unfold pyRange
  rw [if_neg (by omega)]
  exact pyRangeAux_mem hstep (stop - start) start stop (by omega) i

theorem pyRange_mem_mod {N W k : Nat} (hW : 0 < W) (hk : k < W) (i : Nat) :
    i ∈ pyRange k N W ↔ (i < N ∧ i % W = k) := by
  rw [pyRange_mem hW i]
  constructor
  · rintro ⟨h1, h2, h3⟩
    refine ⟨h2, ?_⟩
    obtain ⟨m, hm⟩ := Nat.dvd_of_mod_eq_zero h3
    have heq : i = k + W * m := by omega
    rw [heq, Nat.add_mul_mod_self_left, Nat.mod_eq_of_lt hk]
  · rintro ⟨h1, h2⟩
    have hkle : k ≤ i := h2 ▸ Nat.mod_le i W
    refine ⟨hkle, h1, ?_⟩
    have hdm := Nat.div_add_mod i W
    have heq : i - k = W * (i / W) := by omega
    rw [heq, Nat.mul_mod_right]

theorem pyRangeAux_nil_or_cons (fuel start stop step : Nat) :
    pyRangeAux fuel start stop step = [] ∨
    ∃ t, pyRangeAux fuel start stop step = start :: t := by
  cases fuel with
  | zero => left; rfl
  | succ fuel =>
    by_cases h : start < stop
    · right
      refine ⟨pyRangeAux fuel (start + step) stop step, ?_⟩
      simp [pyRangeAux, h]
    · left; simp [pyRangeAux, h]

theorem pyRangeAux_chain (step : Nat) :
    ∀ (fuel start stop : Nat),
      List.Chain' (fun a b => b = a + step) (pyRangeAux fuel start stop step) := by
  intro fuel
  induction fuel with
  | zero => intro start stop; simp [pyRangeAux]
  | succ fuel ih =>
    intro start stop
    simp only [pyRangeAux]
    by_cases h : start < stop
    · rw [if_pos h, List.chain'_cons']
      refine ⟨?_, ih (start + step) stop⟩
      intro y hy
      rcases pyRangeAux_nil_or_cons fuel (start + step) stop step with hnil | ⟨t, ht⟩
      · simp [hnil] at hy
      · rw [ht] at hy
        simpa using hy.symm
    · rw [if_neg h]; exact List.chain'_nil

/-! ## Claim theorems (first group) -/

/-- Claim C4: the static round-robin assignment gives worker rank `k`
exactly the unit indices `k, k + W, k + 2W, ...` below `N` (membership is
`i < N` with `i % W = k`, and consecutive assigned indices differ by
`W`), and every unit index below `N` belongs to exactly one worker. -/
theorem c4_round_robin (N W : Nat) (hW : 0 < W) :
    (∀ k, k < W → ∀ i, (i ∈ pyRange k N W ↔ (i < N ∧ i % W = k))
      ∧ List.Chain' (fun a b => b = a + W) (pyRange k N W))
    ∧ (∀ i, i < N → ∃! k, k < W ∧ i ∈ pyRange k N W) := by
  constructor
  · intro k hk i
    refine ⟨pyRange_mem_mod hW hk i, ?_⟩
    unfold pyRange
    rw [if_neg (by omega)]
    exact pyRangeAux_chain W (N - k) k N
  · intro i hi
    refine ⟨i % W, ⟨Nat.mod_lt i hW, ?_⟩, ?_⟩
    · exact (pyRange_mem_mod hW (Nat.mod_lt i hW) i).mpr ⟨hi, rfl⟩
    · rintro k ⟨hk, hmem⟩
      exact ((pyRange_mem_mod hW hk i).mp hmem).2.symm

/-- Witness for C4 at `N = 5`, `W = 2`. -/
theorem c4_round_robin_witness :
    (∀ k, k < 2 → ∀ i, (i ∈ pyRange k 5 2 ↔ (i < 5 ∧ i % 2 = k))
      ∧ List.Chain' (fun a b => b = a + 2) (pyRange k 5 2))
    ∧ (∀ i, i < 5 → ∃! k, k < 2 ∧ i ∈ pyRange k 5 2) :=
  c4_round_robin 5 2 (by decide)

/-- Claim C10: the enumeration keeps a directory entry only when the full
concatenated path has no dot, so a `datadir`/`stormsdir` whose own path
contains a dot excludes every entry and the unit list is empty. -/
theorem c10_dot_excludes_all (datadir stormsdir : String) (listing : List String)
    (isdir : String → Bool)
    (h : '.' ∈ (datadir ++ "/" ++ stormsdir).data) :
    enumerateDirs datadir stormsdir listing isdir = [] := by
  unfold enumerateDirs
  rw [List.map_eq_nil_iff, List.filter_eq_nil_iff]
  intro e he
  have hmem : '.' ∈ ((datadir ++ "/" ++ stormsdir) ++ "/" ++ e).data := by
    rw [String.data_append]
    exact List.mem_append_left _ (by rw [String.data_append]; exact List.mem_append_left _ h)
  have hdot : containsDot ((datadir ++ "/" ++ stormsdir) ++ "/" ++ e) = true := by
    unfold containsDot
    exact List.elem_iff.mpr hmem
  simp [hdot]

/-- Witness for C10 with `datadir = "./data"`. -/
theorem c10_dot_excludes_all_witness :
    enumerateDirs "./data" "storms" ["s001", "s002"] (fun _ => true) = [] :=
  c10_dot_excludes_all "./data" "storms" ["s001", "s002"] (fun _ => true) (by decide)

/-- Counterexample to claim C5: the coordinator does not sort the
directory listing; with listing `["s2", "s1"]` the enumerated unit list
keeps that order and is not sorted. -/
theorem c5_counterexample :
    enumerateDirs "data" "storms" ["s2", "s1"] (fun _ => true) =
      ["data/storms/s2", "data/storms/s1"]
    ∧ ¬ List.Pairwise strLe
        (enumerateDirs "data" "storms" ["s2", "s1"] (fun _ => true)) := by
  exact ⟨rfl, by decide⟩

/-- Claim C5 as amended: the coordinator enumerates storm directories in
the order of the directory listing (a sublist of the listing mapped to
full paths, not sorted), and the broadcast hands every worker the
identical list. -/
theorem c5_amended (datadir stormsdir : String) (listing : List String)
    (isdir : String → Bool) (w : Nat) :
    (enumerateDirs datadir stormsdir listing isdir).Sublist
      (listing.map (fun e => datadir ++ "/" ++ stormsdir ++ "/" ++ e))
    ∧ ∀ d ∈ bcast w (enumerateDirs datadir stormsdir listing isdir),
        d = enumerateDirs datadir stormsdir listing isdir := by
  constructor
  · exact List.Sublist.map _ (List.filter_sublist listing)
  · intro d hd
    exact List.eq_of_mem_replicate hd

/-- Claim C8: a unit whose extraction returns no data is skipped: it
changes the accumulator of its worker not at all (zero rows for every
key), and the remaining assigned units are still processed exactly as if
the empty unit were not there. -/
theorem c8_none_skipped (xs ys : List (Nat × Option Record)) (i : Nat) (acc : Accum) :
    foldUnits (xs ++ (i, none) :: ys) acc = foldUnits (xs ++ ys) acc := by
  induction xs generalizing acc with
  | nil => rfl
  | cons p xs ih =>
    obtain ⟨j, u⟩ := p
    simp only [List.cons_append, foldUnits]
    cases stepUnit acc j u with
    | error e => rfl
    | ok acc' => exact ih acc'

/-- The one unit of the C9 scenario: its key `"z"` has zero rows. -/
def c9units : List (Option Record) :=
  [some [("inds", Frag.arrF ⟨[3], 1⟩), ("z", Frag.arrF ⟨[], 1⟩)]]

/-- The consolidated dataset of the C9 scenario run: the all-zero-rows
key `"z"` is stored as a zero-row entry, not skipped. -/
def c9data : List (String × Arr) :=
  [("inds", ⟨[3], 1⟩), ("storm", ⟨[0], 1⟩), ("z", ⟨[], 1⟩)]

/-- Counterexample to claim C9: with one worker and one unit whose key
`"z"` has zero rows, every rank reports zero rows for `"z"`, yet the
coordinator does not skip the key: the NumPy integer division in
`flatcounts = recvbuf.size // buf_shape[0] * counts` yields zero flat
counts, the gather moves nothing, and the consolidated dataset stores a
zero-row entry under `"z"`. -/
theorem c9_counterexample :
    (∀ p ∈ processOrder c9units 1, rowsOfKey "z" p.2 = 0)
    ∧ createRun c9units 1 = Except.ok c9data
    ∧ lookupKey c9data "z" = some ⟨[], 1⟩ :=
  ⟨by decide, rfl, rfl⟩

/-- Claim C9 as amended: when every rank reports zero rows for a key the
coordinator neither skips it nor fails: `counts` is a NumPy array, so
`buf_shape[0] = sum(counts)` is an `np.int64` and the division by the
zero total emits a RuntimeWarning and yields 0, the per-rank flat
counts are all zero, the gather moves nothing, and a zero-row array is
stored under the key. -/
theorem c9_zero_rows_stored (root : Arr) (rest : List Arr)
    (h0 : ∀ a ∈ root :: rest, a.rowCount = 0)
    (hwf : ∀ a ∈ root :: rest, a.flat.length = a.rowCount * root.trailing) :
    gatherKey (root :: rest) = Except.ok ⟨[], root.trailing⟩ := by
  have hall : ((root :: rest).all
      (fun a => a.flat.length = a.rowCount * root.trailing)) = true := by
    rw [List.all_eq_true]
    intro a ha
    exact decide_eq_true (hwf a ha)
  have hflat : ∀ a ∈ root :: rest, a.flat = [] := by
    intro a ha
    have hlen := hwf a ha
    rw [h0 a ha, Nat.zero_mul] at hlen
    exact List.eq_nil_of_length_eq_zero hlen
  have hnil : ((root :: rest).map Arr.flat).flatten = [] := by
    rw [List.flatten_eq_nil_iff]
    intro l hl
    obtain ⟨a, ha, rfl⟩ := List.mem_map.mp hl
    exact hflat a ha
  simp only [gatherKey]
  rw [if_pos hall, hnil]

/-- Witness for the amended C9 on a single empty-rowed rank. -/
theorem c9_zero_rows_stored_witness :
    gatherKey [⟨[], 1⟩] = Except.ok ⟨[], 1⟩ :=
  c9_zero_rows_stored ⟨[], 1⟩ [] (by decide) (by decide)

theorem sortedKeys_eq_of_perm {l1 l2 : List (String × Arr)}
    (h : (l1.map Prod.fst).Perm (l2.map Prod.fst)) :
    sortedKeys l1 = sortedKeys l2 := by
  haveI : IsTotal String strLe := ⟨strLe_total⟩
  haveI : IsTrans String strLe := ⟨fun _ _ _ => strLe_trans⟩
  haveI : IsAntisymm String strLe := ⟨fun _ _ => strLe_antisymm⟩
  exact List.eq_of_perm_of_sorted
    (((List.perm_insertionSort strLe _).trans h).trans
      (List.perm_insertionSort strLe _).symm)
    (List.sorted_insertionSort strLe _)
    (List.sorted_insertionSort strLe _)

/-- Claim C6: the gather-phase key iteration order is the lexicographic
sort of the accumulated key names; two local data dicts holding the same
key set in different insertion orders sort to the identical key
sequence. -/
theorem c6_gather_order_deterministic (l1 l2 : List (String × Arr))
    (h1 : (l1.map Prod.fst).Nodup) (h2 : (l2.map Prod.fst).Nodup)
    (hmem : ∀ k, k ∈ l1.map Prod.fst ↔ k ∈ l2.map Prod.fst) :
    sortedKeys l1 = sortedKeys l2 :=
  sortedKeys_eq_of_perm ((List.perm_ext_iff_of_nodup h1 h2).mpr hmem)

/-- Witness for C6 on two insertion orders of the key set
`{"storm", "maxele"}`. -/
theorem c6_gather_order_deterministic_witness :
    sortedKeys [("storm", (⟨[1], 1⟩ : Arr)), ("maxele", (⟨[2], 1⟩ : Arr))] =
      sortedKeys [("maxele", (⟨[5], 1⟩ : Arr)), ("storm", (⟨[6], 1⟩ : Arr))] :=
  c6_gather_order_deterministic _ _ (by decide) (by decide)
    (by
      intro k
      simp only [List.map_cons, List.map_nil, List.mem_cons,
        List.not_mem_nil, or_false]
      exact Or.comm)

/-- Claim C7: with `coastal_dist` the first-discovered reference array,
the coordinator construction fails (the `Inconsistent lengths`
`ValueError`) exactly when some array has a different length from it,
and otherwise returns the variable names with the common length
`num_nodes`. -/
theorem c7_shared_length_check (mesh_vars : List (String × List Val)) (n : List Val)
    (hhead : mesh_vars.head? = some ("coastal_dist", n)) :
    (initSharedRoot mesh_vars = Except.error Err.valueError ↔
      ∃ p ∈ mesh_vars, p.2.length ≠ n.length)
    ∧ ((∀ p ∈ mesh_vars, p.2.length = n.length) →
      initSharedRoot mesh_vars = Except.ok (mesh_vars.map Prod.fst, n.length)) := by
  cases mesh_vars with
  | nil => simp at hhead
  | cons q rest =>
    have hq : q = ("coastal_dist", n) := by simpa using hhead
    subst hq
    have hfind : lookupKey (("coastal_dist", n) :: rest) "coastal_dist" = some n := by
      unfold lookupKey
      rw [List.find?_cons_of_pos _ (by simp)]
      rfl
    unfold initSharedRoot
    rw [hfind]
    dsimp only
    by_cases hall : (("coastal_dist", n) :: rest).all
        (fun p => p.2.length = n.length) = true
    · constructor
      · rw [if_pos hall]
        simp only [List.all_eq_true, decide_eq_true_eq] at hall
        constructor
        · intro h; exact absurd h (by simp)
        · rintro ⟨p, hp, hlen⟩
          exact absurd (hall p hp) hlen
      · intro _
        rw [if_pos hall]
    · constructor
      · rw [if_neg hall]
        simp only [List.all_eq_true, decide_eq_true_eq, not_forall] at hall
        obtain ⟨p, hp, hlen⟩ := hall
        exact ⟨fun _ => ⟨p, hp, hlen⟩, fun _ => rfl⟩
      · intro hforall
        exact absurd (List.all_eq_true.mpr
          (fun p hp => decide_eq_true (hforall p hp))) hall

/-- Witness for C7 on two equal-length arrays and on nothing else. -/
theorem c7_shared_length_check_witness :
    (initSharedRoot [("coastal_dist", [1, 2]), ("bathy_mean", [3, 4])] =
        Except.error Err.valueError ↔
      ∃ p ∈ [(("coastal_dist" : String), ([1, 2] : List Val)),
        ("bathy_mean", [3, 4])], p.2.length ≠ ([1, 2] : List Val).length)
    ∧ ((∀ p ∈ [(("coastal_dist" : String), ([1, 2] : List Val)),
        ("bathy_mean", [3, 4])], p.2.length = ([1, 2] : List Val).length) →
      initSharedRoot [("coastal_dist", [1, 2]), ("bathy_mean", [3, 4])] =
        Except.ok (["coastal_dist", "bathy_mean"], 2)) :=
  c7_shared_length_check [("coastal_dist", [1, 2]), ("bathy_mean", [3, 4])]
    [1, 2] rfl

theorem flatten_take_drop {α : Type} :
    ∀ (L : List (List α)) (r : Nat) (h : r < L.length),
      ((L.flatten.drop (((L.take r).map List.length).sum)).take L[r].length) =
        L[r] := by
  intro L
  induction L with
  | nil => intro r h; simp at h
  | cons x xs ih =>
    intro r h
    cases r with
    | zero =>
      simp only [List.take_zero, List.map_nil, List.sum_nil, List.drop_zero,
        List.flatten_cons, List.getElem_cons_zero]
      exact List.take_left x xs.flatten
    | succ r =>
      simp only [List.take_succ_cons, List.map_cons, List.sum_cons,
        List.flatten_cons, List.getElem_cons_succ]
      rw [List.drop_append]
      exact ih r (by simpa using h)

/-- Claim C3: when all ranks agree on the trailing shape of a key, the
per-key gather succeeds with total row count the sum of the per-rank row
counts, the flat buffer is the rank-order concatenation (rank `r`
starting at the element offset `sum of the row counts of ranks 0..r-1`
times the trailing size), and the result is reshaped to
`(totalRows,) + trailingShape` (trailing size preserved). -/
theorem c3_gather_offsets (locals : List Arr) (t : Nat) (ht : 0 < t)
    (htr : ∀ a ∈ locals, a.trailing = t)
    (hdiv : ∀ a ∈ locals, t ∣ a.flat.length)
    (hsum : 0 < (locals.map Arr.rowCount).sum) :
    ∃ g, gatherKey locals = Except.ok g
      ∧ g.trailing = t
      ∧ g.rowCount = (locals.map Arr.rowCount).sum
      ∧ g.flat = (locals.map Arr.flat).flatten
      ∧ ∀ r, (h : r < locals.length) →
          ((g.flat.drop ((((locals.map Arr.rowCount).take r).sum) * t)).take
            (locals[r].rowCount * t)) = locals[r].flat := by
  have hlen : ∀ a ∈ locals, a.flat.length = a.rowCount * t := by
    intro a ha
    calc a.flat.length = a.flat.length / t * t :=
          (Nat.div_mul_cancel (hdiv a ha)).symm
      _ = a.rowCount * t := by rw [Arr.rowCount, htr a ha]
  have hflatlen : ∀ s : List Arr, (∀ a ∈ s, a.flat.length = a.rowCount * t) →
      ((s.map Arr.flat).flatten).length = (s.map Arr.rowCount).sum * t := by
    intro s hs
    rw [List.length_flatten, List.map_map]
    have hcongr : s.map (List.length ∘ Arr.flat) =
        s.map (fun a => a.rowCount * t) :=
      List.map_congr_left (fun a ha => hs a ha)
    rw [hcongr, List.sum_map_mul_right]
  cases locals with
  | nil => simp at hsum
  | cons root rest =>
    have hroott : root.trailing = t := htr root (List.mem_cons_self root rest)
    have hall : ((root :: rest).all
        (fun a => a.flat.length = a.rowCount * root.trailing)) = true := by
      rw [List.all_eq_true]
      intro a ha
      rw [hroott]
      exact decide_eq_true (hlen a ha)
    refine ⟨⟨((root :: rest).map Arr.flat).flatten, root.trailing⟩,
      ?_, hroott, ?_, rfl, ?_⟩
    · simp only [gatherKey]
      rw [if_pos hall]
    · show (((root :: rest).map Arr.flat).flatten).length / root.trailing = _
      rw [hflatlen (root :: rest) hlen, hroott]
      exact Nat.mul_div_cancel _ ht
    · intro r h
      have hL : r < ((root :: rest).map Arr.flat).length := by simpa using h
      have hdropamt : ((((root :: rest).map Arr.rowCount).take r).sum) * t =
          ((((root :: rest).map Arr.flat).take r).map List.length).sum := by
        rw [← List.map_take, ← List.map_take, List.map_map]
        have hcongr : ((root :: rest).take r).map (List.length ∘ Arr.flat) =
            ((root :: rest).take r).map (fun a => a.rowCount * t) :=
          List.map_congr_left
            (fun a ha => hlen a (List.mem_of_mem_take ha))
        rw [hcongr, List.sum_map_mul_right]
      have htakeamt : ((root :: rest)[r]).rowCount * t =
          (((root :: rest).map Arr.flat)[r]).length := by
        rw [List.getElem_map]
        exact (hlen _ (List.getElem_mem h)).symm
      have hget : ((root :: rest).map Arr.flat)[r] = ((root :: rest)[r]).flat :=
        List.getElem_map Arr.flat
      show ((((root :: rest).map Arr.flat).flatten.drop
          ((((root :: rest).map Arr.rowCount).take r).sum * t)).take
          (((root :: rest)[r]).rowCount * t)) = ((root :: rest)[r]).flat
      rw [hdropamt, htakeamt, ← hget]
      exact flatten_take_drop ((root :: rest).map Arr.flat) r hL

/-- Witness for C3 at the end-to-end example of the specification: four
units with row counts 3, 5, 2 and 4, two workers, round-robin; worker 0
holds the rows of units 0 and 2 and worker 1 those of units 1 and 3, so
the gathered length is 14 with rows 0-2 from unit 0, 3-4 from unit 2,
5-9 from unit 1 and 10-13 from unit 3. -/
theorem c3_gather_offsets_witness :
    ∃ g, gatherKey [⟨[0, 0, 0, 2, 2], 1⟩,
        ⟨[1, 1, 1, 1, 1, 3, 3, 3, 3], 1⟩] = Except.ok g
      ∧ g.trailing = 1
      ∧ g.rowCount = ([(⟨[0, 0, 0, 2, 2], 1⟩ : Arr),
          ⟨[1, 1, 1, 1, 1, 3, 3, 3, 3], 1⟩].map Arr.rowCount).sum
      ∧ g.flat = ([(⟨[0, 0, 0, 2, 2], 1⟩ : Arr),
          ⟨[1, 1, 1, 1, 1, 3, 3, 3, 3], 1⟩].map Arr.flat).flatten
      ∧ ∀ r, (h : r < ([(⟨[0, 0, 0, 2, 2], 1⟩ : Arr),
          ⟨[1, 1, 1, 1, 1, 3, 3, 3, 3], 1⟩] : List Arr).length) →
          ((g.flat.drop (((([(⟨[0, 0, 0, 2, 2], 1⟩ : Arr),
              ⟨[1, 1, 1, 1, 1, 3, 3, 3, 3], 1⟩].map Arr.rowCount).take r).sum) * 1)).take
            (([(⟨[0, 0, 0, 2, 2], 1⟩ : Arr),
              ⟨[1, 1, 1, 1, 1, 3, 3, 3, 3], 1⟩] : List Arr)[r].rowCount * 1)) =
          ([(⟨[0, 0, 0, 2, 2], 1⟩ : Arr),
            ⟨[1, 1, 1, 1, 1, 3, 3, 3, 3], 1⟩] : List Arr)[r].flat :=
  c3_gather_offsets [⟨[0, 0, 0, 2, 2], 1⟩, ⟨[1, 1, 1, 1, 1, 3, 3, 3, 3], 1⟩] 1
    (by decide) (by decide) (by decide) (by decide)

/-! ## Key-membership lemmas for the worker pipeline -/

theorem hasKey_iff {α : Type} (l : List (String × α)) (k : String) :
    hasKey l k = true ↔ k ∈ l.map Prod.fst := by
  unfold hasKey
  rw [List.find?_isSome]
  constructor
  · rintro ⟨p, hp, hpred⟩
    exact List.mem_map.mpr ⟨p, hp, by simpa using hpred⟩
  · intro h
    obtain ⟨p, hp, hfst⟩ := List.mem_map.mp h
    exact ⟨p, hp, by simpa using hfst⟩

theorem map_fst_accAppend (acc : Accum) (k : String) (v : Frag) :
    (accAppend acc k v).map Prod.fst =
      if hasKey acc k then acc.map Prod.fst else acc.map Prod.fst ++ [k] := by
  unfold accAppend
  by_cases h : hasKey acc k
  · rw [if_pos h, if_pos h, List.map_map]
    apply List.map_congr_left
    intro p _
    by_cases hp : p.1 = k <;> simp [hp]
  · rw [if_neg h, if_neg h, List.map_append]
    rfl

theorem mem_fst_accAppend (acc : Accum) (k : String) (v : Frag) (q : String) :
    q ∈ (accAppend acc k v).map Prod.fst ↔ (q ∈ acc.map Prod.fst ∨ q = k) := by
  rw [map_fst_accAppend]
  by_cases h : hasKey acc k
  · rw [if_pos h]
    constructor
    · exact Or.inl
    · rintro (hq | rfl)
      · exact hq
      · exact (hasKey_iff acc q).mp h
  · rw [if_neg h]
    simp [List.mem_append]

theorem mem_fst_accRecord (r : Record) :
    ∀ (acc : Accum) (q : String),
      (q ∈ (accRecord acc r).map Prod.fst ↔
        (q ∈ acc.map Prod.fst ∨ q ∈ r.map Prod.fst)) := by
  induction r with
  | nil => intro acc q; simp [accRecord]
  | cons p rest ih =>
    intro acc q
    obtain ⟨k, v⟩ := p
    show q ∈ (accRecord (accAppend acc k v) rest).map Prod.fst ↔ _
    rw [ih (accAppend acc k v) q, mem_fst_accAppend]
    simp only [List.map_cons, List.mem_cons]
    tauto

theorem map_fst_setItem (r : Record) (k : String) (v : Frag) :
    (setItem r k v).map Prod.fst =
      if hasKey r k then r.map Prod.fst else r.map Prod.fst ++ [k] := by
  unfold setItem
  by_cases h : hasKey r k
  · rw [if_pos h, if_pos h, List.map_map]
    apply List.map_congr_left
    intro p _
    by_cases hp : p.1 = k <;> simp [hp]
  · rw [if_neg h, if_neg h, List.map_append]
    rfl

theorem mem_fst_tagStorm {i : Nat} {r trec : Record}
    (h : tagStorm i r = some trec) (q : String) :
    q ∈ trec.map Prod.fst ↔ (q ∈ r.map Prod.fst ∨ q = "storm") := by
  unfold tagStorm at h
  cases hfind : lookupKey r "inds" with
  | none => rw [hfind] at h; exact absurd h (by simp)
  | some f =>
    rw [hfind] at h
    cases f with
    | scalarF v => exact absurd h (by simp)
    | arrF a =>
      have htrec : trec = setItem r "storm"
          (Frag.arrF ⟨List.replicate a.rowCount (Int.ofNat i), 1⟩) := by
        simpa using h.symm
      subst htrec
      rw [map_fst_setItem]
      by_cases hs : hasKey r "storm"
      · rw [if_pos hs]
        constructor
        · exact Or.inl
        · rintro (hq | rfl)
          · exact hq
          · exact (hasKey_iff r _).mp hs
      · rw [if_neg hs]
        simp [List.mem_append]

theorem foldUnits_keys :
    ∀ (l : List (Nat × Option Record)) (acc acc' : Accum),
      foldUnits l acc = Except.ok acc' → ∀ q : String,
      (q ∈ acc'.map Prod.fst ↔
        (q ∈ acc.map Prod.fst ∨ ∃ p ∈ l, ∃ rec : Record,
          p.2 = some rec ∧ (q ∈ rec.map Prod.fst ∨ q = "storm"))) := by
  intro l
  induction l with
  | nil =>
    intro acc acc' h q
    have : acc = acc' := by simpa [foldUnits] using h
    subst this
    simp
  | cons p rest ih =>
    intro acc acc' h q
    obtain ⟨j, u⟩ := p
    cases u with
    | none =>
      have hrest : foldUnits rest acc = Except.ok acc' := by
        simpa [foldUnits, stepUnit] using h
      rw [ih acc acc' hrest q]
      constructor
      · rintro (hq | ⟨p, hp, rec, hrec, hcase⟩)
        · exact Or.inl hq
        · exact Or.inr ⟨p, List.mem_cons_of_mem _ hp, rec, hrec, hcase⟩
      · rintro (hq | ⟨p, hp, rec, hrec, hcase⟩)
        · exact Or.inl hq
        · rcases List.mem_cons.mp hp with rfl | hp'
          · exact absurd hrec (by simp)
          · exact Or.inr ⟨p, hp', rec, hrec, hcase⟩
    | some rec =>
      cases htag : tagStorm j rec with
      | none =>
        rw [foldUnits] at h
        rw [show stepUnit acc j (some rec) = Except.error Err.typeError by
          simp [stepUnit, htag]] at h
        exact absurd h (by simp)
      | some trec =>
        rw [foldUnits] at h
        rw [show stepUnit acc j (some rec) = Except.ok (accRecord acc trec) by
          simp [stepUnit, htag]] at h
        rw [ih _ acc' h q, mem_fst_accRecord, mem_fst_tagStorm htag]
        constructor
        · rintro ((hq | hcase) | ⟨p, hp, rec', hrec', hcase'⟩)
          · exact Or.inl hq
          · exact Or.inr ⟨(j, some rec), List.mem_cons_self _ _, rec, rfl, hcase⟩
          · exact Or.inr ⟨p, List.mem_cons_of_mem _ hp, rec', hrec', hcase'⟩
        · rintro (hq | ⟨p, hp, rec', hrec', hcase'⟩)
          · exact Or.inl (Or.inl hq)
          · rcases List.mem_cons.mp hp with rfl | hp'
            · have heq : rec = rec' := by simpa using hrec'
              subst heq
              exact Or.inl (Or.inr hcase')
            · exact Or.inr ⟨p, hp', rec', hrec', hcase'⟩

theorem consolidateAll_keys :
    ∀ (acc : Accum) (ld : List (String × Arr)),
      consolidateAll acc = Except.ok ld → ld.map Prod.fst = acc.map Prod.fst := by
  intro acc
  induction acc with
  | nil =>
    intro ld h
    have : ld = [] := by simpa [consolidateAll] using h.symm
    simp [this]
  | cons p rest ih =>
    intro ld h
    obtain ⟨k, l⟩ := p
    rw [consolidateAll] at h
    cases hc : consolidate l with
    | error e => rw [hc] at h; exact absurd h (by simp)
    | ok a =>
      rw [hc] at h
      cases hrest : consolidateAll rest with
      | error e => rw [hrest] at h; exact absurd h (by simp)
      | ok ld' =>
        rw [hrest] at h
        have : ld = (k, a) :: ld' := by simpa using h.symm
        subst this
        simp [ih ld' hrest]

/-- Claim C1 as amended: a key that appears in none of the records of a
worker's assigned units (and is not the synthetic `"storm"` key) is
absent from that worker's consolidated local data — no length-0 entry is
created — so the worker does not issue a gather for it. -/
theorem c1_absent_key_not_consolidated (units : List (Option Record)) (r w : Nat)
    (k : String) (ld : List (String × Arr))
    (hok : runWorker units r w = Except.ok ld)
    (hk : k ≠ "storm")
    (habsent : ∀ p ∈ assignedPairs units r w, ∀ rec : Record,
      p.2 = some rec → k ∉ rec.map Prod.fst) :
    lookupKey ld k = none := by
  unfold runWorker at hok
  cases hfold : foldUnits (assignedPairs units r w) [] with
  | error e => rw [hfold] at hok; exact absurd hok (by simp)
  | ok acc =>
    rw [hfold] at hok
    have hkeys := consolidateAll_keys acc ld hok
    rw [lookupKey_eq_none_iff, hkeys]
    intro hmem
    rw [foldUnits_keys _ _ _ hfold k] at hmem
    rcases hmem with h0 | ⟨p, hp, rec, hrec, hcase⟩
    · simp at h0
    · rcases hcase with hmem' | rfl
      · exact habsent p hp rec hrec hmem'
      · exact hk rfl

/-- The two units of the C1 scenario: unit 0 produces keys
`{inds, a}`, unit 1 produces keys `{inds, b}`. -/
def c1units : List (Option Record) :=
  [some [("inds", Frag.arrF ⟨[5], 1⟩), ("a", Frag.arrF ⟨[7], 1⟩)],
   some [("inds", Frag.arrF ⟨[6], 1⟩), ("b", Frag.arrF ⟨[8], 1⟩)]]

/-- Worker 0 local data in the C1 scenario. -/
def c1ld : List (String × Arr) :=
  [("inds", ⟨[5], 1⟩), ("a", ⟨[7], 1⟩), ("storm", ⟨[0], 1⟩)]

/-- Counterexample to claim C1: with two workers, key `"b"` appears in
unit 1 (assigned to worker 1) and in none of worker 0's units; worker
0's consolidation produces no entry at all for `"b"` (not a length-0
array), and the gather phase fails the collective protocol instead of
letting worker 0 participate with an empty array. -/
theorem c1_counterexample :
    (∃ rec : Record, c1units[1]? = some (some rec) ∧ hasKey rec "b" = true)
    ∧ runWorker c1units 0 2 = Except.ok c1ld
    ∧ lookupKey c1ld "b" = none
    ∧ createRun c1units 2 = Except.error Err.protocolMismatch := by
  exact ⟨⟨[("inds", Frag.arrF ⟨[6], 1⟩), ("b", Frag.arrF ⟨[8], 1⟩)],
    rfl, rfl⟩, rfl, rfl, rfl⟩

/-- Witness for the amended C1 at the concrete scenario. -/
theorem c1_absent_key_not_consolidated_witness :
    lookupKey c1ld "b" = none :=
  c1_absent_key_not_consolidated c1units 0 2 "b" c1ld rfl (by decide) (by decide)

/-! ## Structure lemmas for the accumulation phase -/

theorem lookupKey_cons {α : Type} (k' : String) (v : α) (l : List (String × α))
    (q : String) :
    lookupKey ((k', v) :: l) q = if k' = q then some v else lookupKey l q := by
  unfold lookupKey
  by_cases h : k' = q
  · rw [List.find?_cons_of_pos _ (by simpa using h), if_pos h]
    rfl
  · rw [List.find?_cons_of_neg _ (by simpa using h), if_neg h]

theorem lookupKey_of_mem_nodup {α : Type} :
    ∀ (l : List (String × α)), (l.map Prod.fst).Nodup →
      ∀ (k : String) (v : α), (k, v) ∈ l → lookupKey l k = some v := by
  intro l
  induction l with
  | nil => intro _ k v h; simp at h
  | cons p rest ih =>
    intro hnodup k v h
    obtain ⟨k', v'⟩ := p
    have hnodup2 : (k' :: rest.map Prod.fst).Nodup := by simpa using hnodup
    have hnodup' := List.nodup_cons.mp hnodup2
    rw [lookupKey_cons]
    rcases List.mem_cons.mp h with heq | hmem
    · injection heq with h1 h2
      subst h1; subst h2
      rw [if_pos rfl]
    · have hk' : k' ≠ k := by
        intro hcontra
        subst hcontra
        exact hnodup'.1 (List.mem_map.mpr ⟨(k', v), hmem, rfl⟩)
      rw [if_neg hk']
      exact ih hnodup'.2 k v hmem

theorem lookupKey_mem {α : Type} {l : List (String × α)} {k : String} {v : α}
    (h : lookupKey l k = some v) : (k, v) ∈ l := by
  unfold lookupKey at h
  cases hfind : l.find? (fun p => p.1 = k) with
  | none => rw [hfind] at h; exact absurd h (by simp)
  | some p =>
    rw [hfind] at h
    have hp : p.2 = v := by simpa using h
    have hmem := List.mem_of_find?_eq_some hfind
    have hfst : p.1 = k := by simpa using List.find?_some hfind
    have : p = (k, v) := by
      obtain ⟨a, b⟩ := p
      simp only at hfst hp
      rw [hfst, hp]
    exact this ▸ hmem

theorem hasKey_map {α β : Type} (l : List (String × α)) (f : String × α → String × β)
    (hf : ∀ p, (f p).1 = p.1) (k : String) : hasKey (l.map f) k = hasKey l k := by
  unfold hasKey
  rw [List.find?_map]
  have hpred : ((fun p : String × β => decide (p.1 = k)) ∘ f) =
      (fun p : String × α => decide (p.1 = k)) := by
    funext p
    simp [hf p]
  simp [hpred]

theorem accRecord_update :
    ∀ (r : Record), (r.map Prod.fst).Nodup →
      ∀ (acc : Accum), (∀ q ∈ r.map Prod.fst, hasKey acc q = true) →
      accRecord acc r = acc.map (fun p =>
        match lookupKey r p.1 with
        | some v => (p.1, p.2 ++ [v])
        | none => p) := by
  intro r
  induction r with
  | nil =>
    intro _ acc _
    show acc = _
    have : acc.map (fun p =>
        match lookupKey ([] : Record) p.1 with
        | some v => (p.1, p.2 ++ [v])
        | none => p) = acc.map (fun p => p) := rfl
    rw [this, List.map_id']
  | cons hd rest ih =>
    intro hnodup acc hacc
    obtain ⟨k₀, v₀⟩ := hd
    have hnodup2 : (k₀ :: rest.map Prod.fst).Nodup := by simpa using hnodup
    have hnodup' := List.nodup_cons.mp hnodup2
    have hk₀ : hasKey acc k₀ = true := hacc k₀ (by simp)
    show accRecord (accAppend acc k₀ v₀) rest = _
    have haccA : accAppend acc k₀ v₀ =
        acc.map (fun p => if p.1 = k₀ then (p.1, p.2 ++ [v₀]) else p) := by
      unfold accAppend; rw [if_pos hk₀]
    rw [haccA, ih hnodup'.2 _ ?side, List.map_map]
    case side =>
      intro q hq
      rw [hasKey_map]
      · exact hacc q (List.mem_cons_of_mem _ hq)
      · intro p
        by_cases hp : p.1 = k₀ <;> simp [hp]
    apply List.map_congr_left
    intro p _
    show (fun p : String × List Frag =>
        match lookupKey rest p.1 with
        | some v => (p.1, p.2 ++ [v])
        | none => p)
        (if p.1 = k₀ then (p.1, p.2 ++ [v₀]) else p) = _
    by_cases hp : p.1 = k₀
    · have hnone : lookupKey rest p.1 = none := by
        rw [lookupKey_eq_none_iff, hp]
        exact hnodup'.1
      rw [if_pos hp]
      simp only [lookupKey_cons, hnone]
      rw [if_pos hp.symm]
    · rw [if_neg hp]
      simp only [lookupKey_cons]
      rw [if_neg (fun hc => hp hc.symm)]

theorem accRecord_fresh :
    ∀ (r : Record), (r.map Prod.fst).Nodup →
      ∀ (acc : Accum), (∀ q ∈ r.map Prod.fst, hasKey acc q = false) →
      accRecord acc r = acc ++ r.map (fun p => (p.1, [p.2])) := by
  intro r
  induction r with
  | nil => intro _ acc _; simp [accRecord]
  | cons hd rest ih =>
    intro hnodup acc hacc
    obtain ⟨k₀, v₀⟩ := hd
    have hnodup2 : (k₀ :: rest.map Prod.fst).Nodup := by simpa using hnodup
    have hnodup' := List.nodup_cons.mp hnodup2
    have hk₀ : hasKey acc k₀ = false := hacc k₀ (by simp)
    show accRecord (accAppend acc k₀ v₀) rest = _
    have haccA : accAppend acc k₀ v₀ = acc ++ [(k₀, [v₀])] := by
      unfold accAppend; rw [if_neg (by simp [hk₀])]
    rw [haccA, ih hnodup'.2 _ ?fresh]
    case fresh =>
      intro q hq
      have hq1 : hasKey acc q = false := hacc q (List.mem_cons_of_mem _ hq)
      have hq2 : q ≠ k₀ := by
        intro hc
        subst hc
        exact hnodup'.1 hq
      rw [← Bool.not_eq_true] at hq1 ⊢
      rw [hasKey_iff] at hq1 ⊢
      intro hc
      rw [List.map_append] at hc
      rcases List.mem_append.mp hc with hc1 | hc2
      · exact hq1 hc1
      · exact hq2 (by simpa using hc2)
    rw [List.append_assoc]
    rfl

theorem columns_map_fst (ks : List String) (recs : List Record) :
    (columns ks recs).map Prod.fst = ks := by
  unfold columns
  rw [List.map_map]
  exact List.map_id' ks

theorem keyFrags_append (k : String) (l1 l2 : List Record) :
    keyFrags k (l1 ++ l2) = keyFrags k l1 ++ keyFrags k l2 :=
  List.filterMap_append l1 l2 _

theorem accRecord_columns (ks : List String) (hnodup : ks.Nodup)
    (recs : List Record) (rec : Record) (hrec : rec.map Prod.fst = ks) :
    accRecord (columns ks recs) rec = columns ks (recs ++ [rec]) := by
  have hrecnodup : (rec.map Prod.fst).Nodup := hrec ▸ hnodup
  rw [accRecord_update rec hrecnodup _ ?haskeys]
  case haskeys =>
    intro q hq
    rw [hasKey_iff, columns_map_fst]
    exact hrec ▸ hq
  unfold columns
  rw [List.map_map]
  apply List.map_congr_left
  intro q _
  show (match lookupKey rec q with
    | some v => (q, keyFrags q recs ++ [v])
    | none => (q, keyFrags q recs)) = (q, keyFrags q (recs ++ [rec]))
  rw [keyFrags_append]
  cases hlook : lookupKey rec q with
  | none =>
    have : keyFrags q [rec] = [] := by
      unfold keyFrags
      simp [hlook]
    rw [this, List.append_nil]
  | some v =>
    have : keyFrags q [rec] = [v] := by
      unfold keyFrags
      simp [hlook]
    rw [this]

theorem foldl_accRecord_columns (ks : List String) (hnodup : ks.Nodup) :
    ∀ (recs recs₀ : List Record), (∀ rec ∈ recs, rec.map Prod.fst = ks) →
      recs.foldl accRecord (columns ks recs₀) = columns ks (recs₀ ++ recs) := by
  intro recs
  induction recs with
  | nil => intro recs₀ _; simp
  | cons rec rest ih =>
    intro recs₀ hall
    rw [List.foldl_cons,
      accRecord_columns ks hnodup recs₀ rec (hall rec (by simp)),
      ih (recs₀ ++ [rec]) (fun r hr => hall r (List.mem_cons_of_mem _ hr)),
      List.append_assoc]
    rfl

theorem accRecord_nil_columns (ks : List String) (hnodup : ks.Nodup)
    (rec : Record) (hrec : rec.map Prod.fst = ks) :
    accRecord [] rec = columns ks [rec] := by
  have hrecnodup : (rec.map Prod.fst).Nodup := hrec ▸ hnodup
  rw [accRecord_fresh rec hrecnodup [] (fun q _ => rfl), List.nil_append]
  unfold columns
  rw [← hrec, List.map_map]
  apply List.map_congr_left
  intro p hp
  show (p.1, [p.2]) = (p.1, keyFrags p.1 [rec])
  have hlook : lookupKey rec p.1 = some p.2 :=
    lookupKey_of_mem_nodup rec hrecnodup p.1 p.2 hp
  unfold keyFrags
  simp [hlook]

theorem foldl_columns_of_ne_nil (ks : List String) (hnodup : ks.Nodup)
    (recs : List Record) (hne : recs ≠ [])
    (hall : ∀ rec ∈ recs, rec.map Prod.fst = ks) :
    recs.foldl accRecord [] = columns ks recs := by
  cases recs with
  | nil => exact absurd rfl hne
  | cons rec rest =>
    rw [List.foldl_cons, accRecord_nil_columns ks hnodup rec (hall rec (by simp)),
      foldl_accRecord_columns ks hnodup rest [rec]
        (fun r hr => hall r (List.mem_cons_of_mem _ hr))]
    rfl

/-! ## Tagging and fold lemmas -/

theorem setItem_of_not_hasKey {r : Record} {k : String} (v : Frag)
    (h : hasKey r k = false) : setItem r k v = r ++ [(k, v)] := by
  unfold setItem
  rw [if_neg (by simp [h])]

theorem find?_eq_none_of_not_hasKey {α : Type} {r : List (String × α)} {k : String}
    (h : hasKey r k = false) : r.find? (fun p => p.1 = k) = none := by
  unfold hasKey at h
  cases hf : r.find? (fun p => p.1 = k) with
  | none => rfl
  | some p => rw [hf] at h; simp at h

theorem lookupKey_setItem_self (r : Record) (k : String) (v : Frag)
    (h : hasKey r k = false) : lookupKey (setItem r k v) k = some v := by
  rw [setItem_of_not_hasKey v h]
  unfold lookupKey
  rw [List.find?_append, find?_eq_none_of_not_hasKey h]
  simp [List.find?]

theorem lookupKey_setItem_other (r : Record) (k : String) (v : Frag) (q : String)
    (h : hasKey r k = false) (hq : q ≠ k) :
    lookupKey (setItem r k v) q = lookupKey r q := by
  rw [setItem_of_not_hasKey v h]
  unfold lookupKey
  rw [List.find?_append]
  cases hf : r.find? (fun p => p.1 = q) with
  | none =>
    simp only [hf, Option.none_or]
    have : (fun p : String × Frag => decide (p.1 = q)) (k, v) = false := by
      simp
      exact fun hc => hq hc.symm
    simp [List.find?, this]
  | some p => simp [hf]

theorem tagStorm_eq {i : Nat} {rec : Record} {a : Arr}
    (h : lookupKey rec "inds" = some (Frag.arrF a)) :
    tagStorm i rec = some (setItem rec "storm"
      (Frag.arrF ⟨List.replicate a.rowCount (Int.ofNat i), 1⟩)) := by
  unfold tagStorm
  rw [h]

theorem foldUnits_eq_foldl :
    ∀ (pairs : List (Nat × Option Record)) (acc : Accum),
      (∀ p ∈ pairs, ∀ rec : Record, p.2 = some rec → (tagStorm p.1 rec).isSome) →
      foldUnits pairs acc = Except.ok ((taggedOf pairs).foldl accRecord acc) := by
  intro pairs
  induction pairs with
  | nil => intro acc _; rfl
  | cons p rest ih =>
    intro acc hsucc
    obtain ⟨j, u⟩ := p
    cases u with
    | none =>
      have h1 : taggedOf ((j, none) :: rest) = taggedOf rest := by
        simp [taggedOf]
      rw [h1]
      show foldUnits rest acc = _
      exact ih acc (fun p hp rec h' => hsucc p (List.mem_cons_of_mem _ hp) rec h')
    | some rec =>
      have hs := hsucc (j, some rec) (by simp) rec rfl
      cases htag : tagStorm j rec with
      | none => rw [htag] at hs; simp at hs
      | some trec =>
        have h1 : foldUnits ((j, some rec) :: rest) acc =
            foldUnits rest (accRecord acc trec) := by
          simp [foldUnits, stepUnit, htag]
        have h2 : taggedOf ((j, some rec) :: rest) = trec :: taggedOf rest := by
          simp [taggedOf, htag]
        rw [h1, h2, List.foldl_cons]
        exact ih (accRecord acc trec)
          (fun p hp rec' h' => hsucc p (List.mem_cons_of_mem _ hp) rec' h')

theorem keyFrags_storm :
    ∀ (pairs : List (Nat × Option Record)),
      (∀ p ∈ pairs, ∀ rec : Record, p.2 = some rec →
        hasKey rec "storm" = false ∧
        ∃ a : Arr, lookupKey rec "inds" = some (Frag.arrF a)) →
      keyFrags "storm" (taggedOf pairs) = (succPairs pairs).map
        (fun p => Frag.arrF ⟨List.replicate (rowsOfKey "inds" p.2)
          (Int.ofNat p.1), 1⟩) := by
  intro pairs
  induction pairs with
  | nil => intro _; rfl
  | cons p rest ih =>
    intro h
    obtain ⟨j, u⟩ := p
    cases u with
    | none =>
      have h1 : taggedOf ((j, none) :: rest) = taggedOf rest := by simp [taggedOf]
      have h2 : succPairs ((j, none) :: rest) = succPairs rest := by simp [succPairs]
      rw [h1, h2]
      exact ih (fun p hp rec h' => h p (List.mem_cons_of_mem _ hp) rec h')
    | some rec =>
      obtain ⟨hstorm, a, hinds⟩ := h (j, some rec) (by simp) rec rfl
      have htag := tagStorm_eq (i := j) hinds
      have h1 : taggedOf ((j, some rec) :: rest) =
          setItem rec "storm"
            (Frag.arrF ⟨List.replicate a.rowCount (Int.ofNat j), 1⟩) ::
            taggedOf rest := by
        simp [taggedOf, htag]
      have h2 : succPairs ((j, some rec) :: rest) = (j, rec) :: succPairs rest := by
        simp [succPairs]
      rw [h1, h2]
      unfold keyFrags
      rw [List.filterMap_cons, lookupKey_setItem_self rec "storm" _ hstorm,
        List.map_cons]
      have hrows : rowsOfKey "inds" rec = a.rowCount := by
        unfold rowsOfKey
        rw [hinds]
        rfl
      rw [hrows]
      exact congrArg _ (ih (fun p hp rec' h' => h p (List.mem_cons_of_mem _ hp) rec' h'))

theorem keyFrags_tagged_other (q : String) (hq : q ≠ "storm") :
    ∀ (pairs : List (Nat × Option Record)),
      (∀ p ∈ pairs, ∀ rec : Record, p.2 = some rec →
        hasKey rec "storm" = false ∧
        ∃ a : Arr, lookupKey rec "inds" = some (Frag.arrF a)) →
      keyFrags q (taggedOf pairs) =
        (succPairs pairs).filterMap (fun p => lookupKey p.2 q) := by
  intro pairs
  induction pairs with
  | nil => intro _; rfl
  | cons p rest ih =>
    intro h
    obtain ⟨j, u⟩ := p
    cases u with
    | none =>
      have h1 : taggedOf ((j, none) :: rest) = taggedOf rest := by simp [taggedOf]
      have h2 : succPairs ((j, none) :: rest) = succPairs rest := by simp [succPairs]
      rw [h1, h2]
      exact ih (fun p hp rec h' => h p (List.mem_cons_of_mem _ hp) rec h')
    | some rec =>
      obtain ⟨hstorm, a, hinds⟩ := h (j, some rec) (by simp) rec rfl
      have htag := tagStorm_eq (i := j) hinds
      have h1 : taggedOf ((j, some rec) :: rest) =
          setItem rec "storm"
            (Frag.arrF ⟨List.replicate a.rowCount (Int.ofNat j), 1⟩) ::
            taggedOf rest := by
        simp [taggedOf, htag]
      have h2 : succPairs ((j, some rec) :: rest) = (j, rec) :: succPairs rest := by
        simp [succPairs]
      rw [h1, h2]
      unfold keyFrags
      rw [List.filterMap_cons, List.filterMap_cons]
      rw [lookupKey_setItem_other rec "storm" _ q hstorm hq]
      have ihh := ih (fun p hp rec' h' => h p (List.mem_cons_of_mem _ hp) rec' h')
      unfold keyFrags at ihh
      cases hlook : lookupKey rec q with
      | none => simpa [hlook] using ihh
      | some v => simpa [hlook] using ihh

theorem tagStorm_map_fst {i : Nat} {rec trec : Record}
    (h : tagStorm i rec = some trec) (hs : hasKey rec "storm" = false) :
    trec.map Prod.fst = rec.map Prod.fst ++ ["storm"] := by
  unfold tagStorm at h
  cases hfind : lookupKey rec "inds" with
  | none => rw [hfind] at h; exact absurd h (by simp)
  | some f =>
    rw [hfind] at h
    cases f with
    | scalarF v => exact absurd h (by simp)
    | arrF a =>
      have htrec : trec = setItem rec "storm"
          (Frag.arrF ⟨List.replicate a.rowCount (Int.ofNat i), 1⟩) := by
        simpa using h.symm
      subst htrec
      rw [setItem_of_not_hasKey _ hs, List.map_append]
      rfl

/-! ## Consolidation, gather and traversal lemmas -/

theorem consolidate_arrs (frags : List Frag) (t : Nat) (hne : frags ≠ [])
    (hall : ∀ f ∈ frags, ∃ a : Arr, f = Frag.arrF a ∧ a.trailing = t) :
    consolidate frags = Except.ok ⟨(frags.map fragFlat).flatten, t⟩ := by
  cases frags with
  | nil => exact absurd rfl hne
  | cons f rest =>
    obtain ⟨a, rfl, hat⟩ := hall f (by simp)
    have hrest : rest.all (sameTrailing a.trailing) = true := by
      rw [List.all_eq_true]
      intro g hg
      obtain ⟨b, rfl, hbt⟩ := hall g (List.mem_cons_of_mem _ hg)
      simp [sameTrailing, hbt, hat]
    simp only [consolidate]
    rw [if_pos hrest]
    simp only [List.map_cons, List.flatten_cons, fragFlat, hat]

theorem consolidateAll_of_forall (acc : Accum) (f : String × List Frag → Arr)
    (h : ∀ p ∈ acc, consolidate p.2 = Except.ok (f p)) :
    consolidateAll acc = Except.ok (acc.map (fun p => (p.1, f p))) := by
  induction acc with
  | nil => rfl
  | cons p rest ih =>
    obtain ⟨k, l⟩ := p
    have h1 := h (k, l) (by simp)
    simp only [consolidateAll]
    rw [h1, ih (fun p hp => h p (List.mem_cons_of_mem _ hp))]
    rfl

theorem gatherKey_ok (locals : List Arr) (t : Nat)
    (htr : ∀ a ∈ locals, a.trailing = t)
    (hexact : ∀ a ∈ locals, a.flat.length = a.rowCount * t)
    (hne : locals ≠ []) :
    gatherKey locals = Except.ok ⟨(locals.map Arr.flat).flatten, t⟩ := by
  cases locals with
  | nil => exact absurd rfl hne
  | cons root rest =>
    have hroott := htr root (by simp)
    have hall : ((root :: rest).all
        (fun a => a.flat.length = a.rowCount * root.trailing)) = true := by
      rw [List.all_eq_true]
      intro a ha
      rw [hroott]
      exact decide_eq_true (hexact a ha)
    simp only [gatherKey]
    rw [if_pos hall, hroott]

theorem mapM_except_ok {α β : Type} (f : α → Except Err β) (g : α → β) :
    ∀ l : List α, (∀ x ∈ l, f x = Except.ok (g x)) →
      l.mapM f = Except.ok (l.map g) := by
  intro l
  induction l with
  | nil => intro _; rfl
  | cons x rest ih =>
    intro h
    have h1 := h x (by simp)
    have h2 := ih (fun y hy => h y (List.mem_cons_of_mem _ hy))
    rw [List.mapM_cons, h1, h2]
    rfl

theorem mapM_option_ok {α β : Type} (f : α → Option β) (g : α → β) :
    ∀ l : List α, (∀ x ∈ l, f x = some (g x)) → l.mapM f = some (l.map g) := by
  intro l
  induction l with
  | nil => intro _; rfl
  | cons x rest ih =>
    intro h
    have h1 := h x (by simp)
    have h2 := ih (fun y hy => h y (List.mem_cons_of_mem _ hy))
    rw [List.mapM_cons, h1, h2]
    rfl

theorem gatherKeys_ok (locals : List (List (String × Arr))) (G : String → Arr) :
    ∀ ks : List String,
      (∀ k ∈ ks, ∃ arrs : List Arr, collectKey locals k = some arrs ∧
        gatherKey arrs = Except.ok (G k)) →
      gatherKeys ks locals = Except.ok (ks.map (fun k => (k, G k))) := by
  intro ks
  induction ks with
  | nil => intro _; rfl
  | cons k rest ih =>
    intro h
    obtain ⟨arrs, hc, hg⟩ := h k (by simp)
    simp only [gatherKeys]
    simp only [hc, hg, ih (fun q hq => h q (List.mem_cons_of_mem _ hq))]
    rfl

theorem lookupKey_map_graph {β : Type} (g : String → β) :
    ∀ (ks : List String) (k : String),
      lookupKey (ks.map (fun q => (q, g q))) k =
        if k ∈ ks then some (g k) else none := by
  intro ks
  induction ks with
  | nil => intro k; simp [lookupKey]
  | cons q rest ih =>
    intro k
    rw [List.map_cons, lookupKey_cons]
    by_cases hqk : q = k
    · subst hqk
      rw [if_pos rfl, if_pos (by simp)]
    · rw [if_neg hqk, ih k]
      by_cases hk : k ∈ rest
      · rw [if_pos hk, if_pos (List.mem_cons_of_mem _ hk)]
      · rw [if_neg hk, if_neg ?notmem]
        case notmem =>
          intro hc
          rcases List.mem_cons.mp hc with hc1 | hc2
          · exact hqk hc1.symm
          · exact hk hc2

theorem flatten_map_flatten {α γ : Type} (F : α → List (List γ)) :
    ∀ L : List α,
      ((L.map (fun x => (F x).flatten)).flatten) = ((L.map F).flatten).flatten := by
  intro L
  induction L with
  | nil => rfl
  | cons x rest ih =>
    simp only [List.map_cons, List.flatten_cons, List.flatten_append, ih]

theorem length_flatten_filterMap_lookup (q : String) (t : Nat) :
    ∀ (l : List (Nat × Record)),
      (∀ p ∈ l, ∃ a : Arr, lookupKey p.2 q = some (Frag.arrF a) ∧
        a.flat.length = a.rowCount * t) →
      ((l.filterMap (fun p => (lookupKey p.2 q).map fragFlat)).flatten).length =
        (l.map (fun p => rowsOfKey q p.2)).sum * t := by
  intro l
  induction l with
  | nil => intro _; simp
  | cons p rest ih =>
    intro h
    obtain ⟨a, hlook, hlen⟩ := h p (by simp)
    have hmap : (lookupKey p.2 q).map fragFlat = some a.flat := by
      rw [hlook]
      rfl
    simp only [List.filterMap_cons, hmap]
    rw [List.flatten_cons, List.length_append, hlen]
    have hrows : rowsOfKey q p.2 = a.rowCount := by
      unfold rowsOfKey
      rw [hlook]
      rfl
    rw [List.map_cons, List.sum_cons, hrows, Nat.add_mul]
    congr 1
    exact ih (fun p' hp' => h p' (List.mem_cons_of_mem _ hp'))

theorem specRowLabels_length (units : List (Option Record)) (w : Nat) (k : String) :
    (specRowLabels units w k).length =
      ((processOrder units w).map (fun p => rowsOfKey k p.2)).sum := by
  unfold specRowLabels
  rw [List.length_flatten, List.map_map]
  congr 1
  apply List.map_congr_left
  intro p _
  simp

/-! ## Hypothesis-unpacking lemmas for the alignment theorem -/

theorem indsOk_elim {rec : Record} (h : indsOk rec = true) :
    ∃ a : Arr, lookupKey rec "inds" = some (Frag.arrF a) ∧ 0 < a.rowCount := by
  unfold indsOk at h
  cases hl : lookupKey rec "inds" with
  | none => rw [hl] at h; simp at h
  | some f =>
    rw [hl] at h
    cases f with
    | arrF a => exact ⟨a, rfl, by simpa using h⟩
    | scalarF v => simp at h

theorem fragOk_elim {t : Nat} {f : Frag} (h : fragOk t f = true) :
    ∃ a : Arr, f = Frag.arrF a ∧ a.trailing = t ∧
      a.flat.length = a.rowCount * t := by
  cases f with
  | arrF a =>
    unfold fragOk at h
    rw [Bool.and_eq_true, decide_eq_true_eq, decide_eq_true_eq] at h
    exact ⟨a, rfl, h.1, h.2⟩
  | scalarF v => simp [fragOk] at h

theorem mem_processOrder_of_workerSucc {units : List (Option Record)} {w r : Nat}
    {p : Nat × Record} (hr : r < w) (hp : p ∈ workerSucc units w r) :
    p ∈ processOrder units w :=
  List.mem_flatten.mpr ⟨workerSucc units w r,
    List.mem_map.mpr ⟨r, List.mem_range.mpr hr, rfl⟩, hp⟩

theorem mem_workerSucc_of_pair {units : List (Option Record)} {w r : Nat}
    {p : Nat × Option Record} {rec : Record}
    (hp : p ∈ assignedPairs units r w) (hrec : p.2 = some rec) :
    (p.1, rec) ∈ workerSucc units w r :=
  List.mem_filterMap.mpr ⟨p, hp, by rw [hrec]; rfl⟩

theorem lookup_isSome_of_keys {rec : Record} {K : List String} {q : String}
    (hkeys : rec.map Prod.fst = K) (hq : q ∈ K) :
    ∃ f, lookupKey rec q = some f := by
  have hhk : hasKey rec q = true := (hasKey_iff _ _).mpr (hkeys ▸ hq)
  unfold hasKey at hhk
  cases hf : rec.find? (fun p => p.1 = q) with
  | none => rw [hf] at hhk; simp at hhk
  | some p =>
    refine ⟨p.2, ?_⟩
    unfold lookupKey
    rw [hf]
    rfl

theorem gatherAll_eq (locals : List (List (String × Arr))) (ks : List String)
    (hne : locals ≠ [])
    (hks : ∀ ld ∈ locals, sortedKeys ld = ks) :
    gatherAll locals = gatherKeys ks locals := by
  cases locals with
  | nil => exact absurd rfl hne
  | cons root rest =>
    have hroot := hks root (by simp)
    have hall : ((root :: rest).all
        (fun ld => sortedKeys ld = sortedKeys root)) = true := by
      rw [List.all_eq_true]
      intro ld hld
      exact decide_eq_true (by rw [hks ld hld, hroot])
    simp only [gatherAll]
    rw [if_pos hall, hroot]

theorem replicate_flats_length (l : List (Nat × Record)) (g : Nat × Record → Nat)
    (v : Nat × Record → Val) :
    ((l.map (fun p => List.replicate (g p) (v p))).flatten).length =
      (l.map g).sum := by
  rw [List.length_flatten, List.map_map]
  congr 1
  apply List.map_congr_left
  intro p _
  simp

/-- Worker-level run under uniform records: the local data dict holds,
for every key of `K` plus the synthetic storm key, the ordered
concatenation of that worker's per-unit fragments. -/
theorem c2_runWorker_eq (units : List (Option Record)) (w : Nat)
    (K : List String) (T : String → Nat) (r : Nat) (hr : r < w)
    (hK : K.Nodup) (hstormK : "storm" ∉ K)
    (hsucc : workerSucc units w r ≠ [])
    (hkeys : ∀ p ∈ processOrder units w, p.2.map Prod.fst = K)
    (hinds : ∀ p ∈ processOrder units w, indsOk p.2 = true)
    (hfrag : ∀ p ∈ processOrder units w, ∀ pr ∈ p.2, fragOk (T pr.1) pr.2 = true) :
    runWorker units r w = Except.ok
      ((K ++ ["storm"]).map (fun q => (q, workerKeyArr units w T r q))) := by
  have hpairs : ∀ p ∈ assignedPairs units r w, ∀ rec : Record, p.2 = some rec →
      (p.1, rec) ∈ processOrder units w :=
    fun p hp rec hrec =>
      mem_processOrder_of_workerSucc hr (mem_workerSucc_of_pair hp hrec)
  have hstormfree : ∀ p ∈ processOrder units w, hasKey p.2 "storm" = false := by
    intro p hp
    rw [← Bool.not_eq_true, hasKey_iff, hkeys p hp]
    exact hstormK
  have htagok : ∀ p ∈ assignedPairs units r w, ∀ rec : Record,
      p.2 = some rec → (tagStorm p.1 rec).isSome := by
    intro p hp rec hrec
    obtain ⟨a, hl, _⟩ := indsOk_elim (hinds _ (hpairs p hp rec hrec))
    rw [tagStorm_eq hl]
    rfl
  have hbundle : ∀ p ∈ assignedPairs units r w, ∀ rec : Record, p.2 = some rec →
      hasKey rec "storm" = false ∧
      ∃ a : Arr, lookupKey rec "inds" = some (Frag.arrF a) := by
    intro p hp rec hrec
    refine ⟨hstormfree _ (hpairs p hp rec hrec), ?_⟩
    obtain ⟨a, hl, _⟩ := indsOk_elim (hinds _ (hpairs p hp rec hrec))
    exact ⟨a, hl⟩
  have hKt : (K ++ ["storm"]).Nodup := by
    rw [List.nodup_append]
    refine ⟨hK, by simp, ?_⟩
    intro a ha hb
    have : a = "storm" := by simpa using hb
    subst this
    exact hstormK ha
  have htrkeys : ∀ trec ∈ taggedOf (assignedPairs units r w),
      trec.map Prod.fst = K ++ ["storm"] := by
    intro trec htrec
    obtain ⟨p, hp, hbind⟩ := List.mem_filterMap.mp htrec
    cases hu : p.2 with
    | none => rw [hu] at hbind; simp at hbind
    | some rec =>
      rw [hu] at hbind
      have htag : tagStorm p.1 rec = some trec := hbind
      have hPO := hpairs p hp rec hu
      rw [tagStorm_map_fst htag (hstormfree _ hPO), hkeys _ hPO]
  have htne : taggedOf (assignedPairs units r w) ≠ [] := by
    intro hcontra
    apply hsucc
    cases hws : workerSucc units w r with
    | nil => rfl
    | cons q qs =>
      exfalso
      have hq : q ∈ workerSucc units w r := by rw [hws]; simp
      obtain ⟨p, hp, hmap⟩ := List.mem_filterMap.mp hq
      cases hu : p.2 with
      | none => rw [hu] at hmap; simp at hmap
      | some rec =>
        have hts := htagok p hp rec hu
        cases htag : tagStorm p.1 rec with
        | none => rw [htag] at hts; simp at hts
        | some trec =>
          have hmem : trec ∈ taggedOf (assignedPairs units r w) :=
            List.mem_filterMap.mpr ⟨p, hp, by rw [hu]; simpa using htag⟩
          rw [hcontra] at hmem
          simp at hmem
  have hkfne : ∀ q ∈ K ++ ["storm"],
      keyFrags q (taggedOf (assignedPairs units r w)) ≠ [] := by
    intro q hq
    cases hts : taggedOf (assignedPairs units r w) with
    | nil => exact absurd hts htne
    | cons t₀ trest =>
      have hkeys0 : t₀.map Prod.fst = K ++ ["storm"] :=
        htrkeys t₀ (by rw [hts]; simp)
      obtain ⟨f, hf⟩ := lookup_isSome_of_keys hkeys0 hq
      unfold keyFrags
      rw [List.filterMap_cons]
      simp [hf]
  have hfragsK : ∀ q ∈ K, ∀ f ∈ keyFrags q (taggedOf (assignedPairs units r w)),
      ∃ a : Arr, f = Frag.arrF a ∧ a.trailing = T q := by
    intro q hq f hf
    have hqs : q ≠ "storm" := fun hc => hstormK (hc ▸ hq)
    rw [keyFrags_tagged_other q hqs _ hbundle] at hf
    obtain ⟨p, hp, hl⟩ := List.mem_filterMap.mp hf
    have hPO := mem_processOrder_of_workerSucc hr hp
    obtain ⟨a, rfl, hat, _⟩ := fragOk_elim (hfrag _ hPO (q, f) (lookupKey_mem hl))
    exact ⟨a, rfl, hat⟩
  unfold runWorker
  rw [foldUnits_eq_foldl _ [] htagok]
  show consolidateAll _ = _
  rw [foldl_columns_of_ne_nil _ hKt _ htne htrkeys]
  rw [consolidateAll_of_forall _
    (fun p => ⟨(p.2.map fragFlat).flatten, trailingOf T p.1⟩) ?hcons]
  case hcons =>
    intro p hp
    obtain ⟨q, hq, rfl⟩ := List.mem_map.mp hp
    apply consolidate_arrs _ _ (hkfne q hq)
    intro f hf
    rcases List.mem_append.mp hq with hqK | hqS
    · obtain ⟨a, rfl, hat⟩ := hfragsK q hqK f hf
      refine ⟨a, rfl, ?_⟩
      rw [hat]
      unfold trailingOf
      rw [if_neg (fun hc : q = "storm" => hstormK (hc ▸ hqK))]
    · have hqs : q = "storm" := by simpa using hqS
      subst hqs
      rw [keyFrags_storm _ hbundle] at hf
      obtain ⟨p', hp', rfl⟩ := List.mem_map.mp hf
      exact ⟨_, rfl, by simp [trailingOf]⟩
  unfold columns
  rw [List.map_map]
  rfl

theorem collectKey_map_ranks (q : String) (f : Nat → List (String × Arr))
    (g : Nat → Arr) :
    ∀ l : List Nat, (∀ r ∈ l, lookupKey (f r) q = some (g r)) →
      collectKey (l.map f) q = some (l.map g) := by
  intro l
  induction l with
  | nil => intro _; rfl
  | cons r rest ih =>
    intro h
    unfold collectKey at *
    rw [List.map_cons, List.mapM_cons, h r (by simp),
      ih (fun r' hr' => h r' (List.mem_cons_of_mem _ hr'))]
    rfl

/-- Claim C2 as amended: under uniform records — every successful unit
produces the same key set, every fragment is an array of the per-key
trailing size, every key has at least one global row, and the target key
contributes exactly as many rows as the `"inds"` array in every record —
the run succeeds and the gathered synthetic `"storm"` array labels each
row of the gathered target key with the index of the unit that produced
it (the storm flat equals the spec row labels, the target key rows are
concatenated in the identical processing order, and the two gathered
arrays have the same row count). -/
theorem c2_storm_alignment (units : List (Option Record)) (w : Nat)
    (K : List String) (T : String → Nat) (k : String)
    (hw : 0 < w)
    (hK : K.Nodup)
    (hstormK : "storm" ∉ K)
    (hkK : k ∈ K)
    (hsucc : ∀ r, r < w → workerSucc units w r ≠ [])
    (hkeys : ∀ p ∈ processOrder units w, p.2.map Prod.fst = K)
    (hinds : ∀ p ∈ processOrder units w, indsOk p.2 = true)
    (hfrag : ∀ p ∈ processOrder units w, ∀ pr ∈ p.2, fragOk (T pr.1) pr.2 = true)
    (hT : ∀ q ∈ K, 0 < T q)
    (hpos : ∀ q ∈ K, ∃ p ∈ processOrder units w, 0 < rowsOfKey q p.2)
    (halign : ∀ p ∈ processOrder units w,
      rowsOfKey k p.2 = rowsOfKey "inds" p.2) :
    ∃ data s a, createRun units w = Except.ok data
      ∧ lookupKey data "storm" = some s
      ∧ lookupKey data k = some a
      ∧ s.trailing = 1
      ∧ s.flat = specRowLabels units w k
      ∧ a.flat = ((processOrder units w).filterMap
          (fun p => (lookupKey p.2 k).map fragFlat)).flatten
      ∧ a.rowCount = s.rowCount := by
  have hkstorm : k ≠ "storm" := fun hc => hstormK (hc ▸ hkK)
  have hstormfree : ∀ p ∈ processOrder units w, hasKey p.2 "storm" = false := by
    intro p hp
    rw [← Bool.not_eq_true, hasKey_iff, hkeys p hp]
    exact hstormK
  have hbundle : ∀ r, r < w → ∀ p ∈ assignedPairs units r w, ∀ rec : Record,
      p.2 = some rec → hasKey rec "storm" = false ∧
      ∃ a : Arr, lookupKey rec "inds" = some (Frag.arrF a) := by
    intro r hr p hp rec hrec
    have hPO := mem_processOrder_of_workerSucc hr (mem_workerSucc_of_pair hp hrec)
    refine ⟨hstormfree _ hPO, ?_⟩
    obtain ⟨a, hl, _⟩ := indsOk_elim (hinds _ hPO)
    exact ⟨a, hl⟩
  have hlookK : ∀ q ∈ K, ∀ p ∈ processOrder units w, ∃ a : Arr,
      lookupKey p.2 q = some (Frag.arrF a) ∧
      a.flat.length = a.rowCount * T q := by
    intro q hq p hp
    obtain ⟨f, hf⟩ := lookup_isSome_of_keys (hkeys p hp) hq
    obtain ⟨a, rfl, _, hlen⟩ := fragOk_elim (hfrag p hp (q, f) (lookupKey_mem hf))
    exact ⟨a, hf, hlen⟩
  have hstormflat : ∀ r, r < w → (workerKeyArr units w T r "storm").flat =
      ((workerSucc units w r).map
        (fun p => List.replicate (rowsOfKey "inds" p.2) (Int.ofNat p.1))).flatten := by
    intro r hr
    show ((keyFrags "storm" (taggedOf (assignedPairs units r w))).map
      fragFlat).flatten = _
    rw [keyFrags_storm _ (hbundle r hr), List.map_map]
    rfl
  have hkflat : ∀ r, r < w → (workerKeyArr units w T r k).flat =
      ((workerSucc units w r).filterMap
        (fun p => (lookupKey p.2 k).map fragFlat)).flatten := by
    intro r hr
    show ((keyFrags k (taggedOf (assignedPairs units r w))).map
      fragFlat).flatten = _
    rw [keyFrags_tagged_other k hkstorm _ (hbundle r hr), List.map_filterMap]
    rfl
  have hlenK : ∀ q ∈ K, ∀ r, r < w →
      (workerKeyArr units w T r q).flat.length =
        ((workerSucc units w r).map (fun p => rowsOfKey q p.2)).sum * T q := by
    intro q hq r hr
    have hqs : q ≠ "storm" := fun hc => hstormK (hc ▸ hq)
    show (((keyFrags q (taggedOf (assignedPairs units r w))).map
      fragFlat).flatten).length = _
    rw [keyFrags_tagged_other q hqs _ (hbundle r hr), List.map_filterMap]
    exact length_flatten_filterMap_lookup q (T q) _
      (fun p hp => hlookK q hq _ (mem_processOrder_of_workerSucc hr hp))
  have htrailK : ∀ q ∈ K, trailingOf T q = T q := by
    intro q hq
    unfold trailingOf
    rw [if_neg (fun hc : q = "storm" => hstormK (hc ▸ hq))]
  have hrowK : ∀ q ∈ K, ∀ r, r < w →
      (workerKeyArr units w T r q).rowCount =
        ((workerSucc units w r).map (fun p => rowsOfKey q p.2)).sum := by
    intro q hq r hr
    show (workerKeyArr units w T r q).flat.length / trailingOf T q = _
    rw [hlenK q hq r hr, htrailK q hq]
    exact Nat.mul_div_cancel _ (hT q hq)
  have hlenS : ∀ r, r < w → (workerKeyArr units w T r "storm").flat.length =
      ((workerSucc units w r).map (fun p => rowsOfKey "inds" p.2)).sum := by
    intro r hr
    rw [hstormflat r hr]
    exact replicate_flats_length _ _ _
  have hrowS : ∀ r, r < w → (workerKeyArr units w T r "storm").rowCount =
      ((workerSucc units w r).map (fun p => rowsOfKey "inds" p.2)).sum := by
    intro r hr
    show (workerKeyArr units w T r "storm").flat.length / trailingOf T "storm" = _
    have h1 : trailingOf T "storm" = 1 := by
      unfold trailingOf
      rw [if_pos rfl]
    rw [hlenS r hr, h1, Nat.div_one]
  have hsumPO : ∀ g : Nat × Record → Nat,
      ((List.range w).map
        (fun r => ((workerSucc units w r).map g).sum)).sum =
        ((processOrder units w).map g).sum := by
    intro g
    unfold processOrder
    rw [List.map_flatten, List.sum_flatten, List.map_map, List.map_map]
    rfl
  have hruns : ∀ r ∈ List.range w, runWorker units r w = Except.ok
      ((K ++ ["storm"]).map (fun q => (q, workerKeyArr units w T r q))) :=
    fun r hrr => c2_runWorker_eq units w K T r (List.mem_range.mp hrr) hK hstormK
      (hsucc r (List.mem_range.mp hrr)) hkeys hinds hfrag
  have hmapM := mapM_except_ok (fun r => runWorker units r w)
    (fun r => (K ++ ["storm"]).map (fun q => (q, workerKeyArr units w T r q)))
    (List.range w) hruns
  have hlocne : (List.range w).map (fun r =>
      (K ++ ["storm"]).map (fun q => (q, workerKeyArr units w T r q))) ≠ [] := by
    rw [Ne, List.map_eq_nil_iff, List.range_eq_nil]
    omega
  have hsortedLD : ∀ ld ∈ (List.range w).map (fun r =>
      (K ++ ["storm"]).map (fun q => (q, workerKeyArr units w T r q))),
      sortedKeys ld = List.insertionSort strLe (K ++ ["storm"]) := by
    intro ld hld
    obtain ⟨r, _, rfl⟩ := List.mem_map.mp hld
    have hfst : (((K ++ ["storm"]).map
        (fun q => (q, workerKeyArr units w T r q))).map Prod.fst) =
        K ++ ["storm"] := by
      rw [List.map_map]
      exact List.map_id' _
    show List.insertionSort strLe (((K ++ ["storm"]).map
      (fun q => (q, workerKeyArr units w T r q))).map Prod.fst) = _
    rw [hfst]
  have hcollect : ∀ q ∈ K ++ ["storm"],
      collectKey ((List.range w).map (fun r =>
        (K ++ ["storm"]).map (fun q => (q, workerKeyArr units w T r q)))) q =
      some ((List.range w).map (fun r => workerKeyArr units w T r q)) := by
    intro q hq
    apply collectKey_map_ranks
    intro r _
    rw [lookupKey_map_graph (fun q => workerKeyArr units w T r q) (K ++ ["storm"]) q,
      if_pos hq]
  have hgather : ∀ q ∈ K ++ ["storm"],
      gatherKey ((List.range w).map (fun r => workerKeyArr units w T r q)) =
        Except.ok (gatherSpecArr units w T q) := by
    intro q hq
    have h1 : gatherKey ((List.range w).map (fun r => workerKeyArr units w T r q)) =
        Except.ok ⟨(((List.range w).map
          (fun r => workerKeyArr units w T r q)).map Arr.flat).flatten,
          trailingOf T q⟩ := by
      apply gatherKey_ok _ (trailingOf T q)
      · intro a ha
        obtain ⟨r, _, rfl⟩ := List.mem_map.mp ha
        rfl
      · intro a ha
        obtain ⟨r, hrr, rfl⟩ := List.mem_map.mp ha
        rcases List.mem_append.mp hq with hqK | hqS
        · rw [hlenK q hqK r (List.mem_range.mp hrr),
            hrowK q hqK r (List.mem_range.mp hrr)]
          show _ = _ * trailingOf T q
          rw [htrailK q hqK]
        · have hqs : q = "storm" := by simpa using hqS
          subst hqs
          rw [hlenS r (List.mem_range.mp hrr), hrowS r (List.mem_range.mp hrr)]
          show _ = _ * trailingOf T "storm"
          exact (Nat.mul_one _).symm
      · rw [Ne, List.map_eq_nil_iff, List.range_eq_nil]
        omega
    rw [h1]
    show _ = Except.ok (⟨((List.range w).map
      (fun r => (workerKeyArr units w T r q).flat)).flatten, trailingOf T q⟩ : Arr)
    rw [List.map_map]
    rfl
  have hgk : gatherKeys (List.insertionSort strLe (K ++ ["storm"]))
      ((List.range w).map (fun r =>
        (K ++ ["storm"]).map (fun q => (q, workerKeyArr units w T r q)))) =
      Except.ok ((List.insertionSort strLe (K ++ ["storm"])).map
        (fun q => (q, gatherSpecArr units w T q))) := by
    apply gatherKeys_ok
    intro q hq
    have hq' : q ∈ K ++ ["storm"] := (List.mem_insertionSort strLe).mp hq
    exact ⟨_, hcollect q hq', hgather q hq'⟩
  refine ⟨(List.insertionSort strLe (K ++ ["storm"])).map
      (fun q => (q, gatherSpecArr units w T q)),
    gatherSpecArr units w T "storm", gatherSpecArr units w T k,
    ?_, ?_, ?_, ?_, ?_, ?_, ?_⟩
  · unfold createRun
    rw [hmapM]
    show gatherAll _ = _
    rw [gatherAll_eq _ _ hlocne hsortedLD, hgk]
  · rw [lookupKey_map_graph,
      if_pos ((List.mem_insertionSort strLe).mpr (by simp))]
  · rw [lookupKey_map_graph,
      if_pos ((List.mem_insertionSort strLe).mpr (List.mem_append.mpr (Or.inl hkK)))]
  · show trailingOf T "storm" = 1
    unfold trailingOf
    rw [if_pos rfl]
  · show ((List.range w).map
      (fun r => (workerKeyArr units w T r "storm").flat)).flatten = _
    have hco : (List.range w).map
        (fun r => (workerKeyArr units w T r "storm").flat) =
        (List.range w).map (fun r => ((workerSucc units w r).map
          (fun p => List.replicate (rowsOfKey "inds" p.2) (Int.ofNat p.1))).flatten) :=
      List.map_congr_left (fun r hrr => hstormflat r (List.mem_range.mp hrr))
    rw [hco, flatten_map_flatten
      (fun r => (workerSucc units w r).map
        (fun p => List.replicate (rowsOfKey "inds" p.2) (Int.ofNat p.1)))]
    have hmm : (List.range w).map (fun r => (workerSucc units w r).map
        (fun p => List.replicate (rowsOfKey "inds" p.2) (Int.ofNat p.1))) =
        ((List.range w).map (fun r => workerSucc units w r)).map
          (List.map (fun p => List.replicate (rowsOfKey "inds" p.2)
            (Int.ofNat p.1))) := by
      rw [List.map_map]
      rfl
    rw [hmm, ← List.map_flatten]
    unfold specRowLabels processOrder
    congr 1
    apply List.map_congr_left
    intro p hp
    have hpPO : p ∈ processOrder units w := hp
    rw [halign p hpPO]
  · show ((List.range w).map
      (fun r => (workerKeyArr units w T r k).flat)).flatten = _
    have hco : (List.range w).map (fun r => (workerKeyArr units w T r k).flat) =
        (List.range w).map (fun r => ((workerSucc units w r).filterMap
          (fun p => (lookupKey p.2 k).map fragFlat)).flatten) :=
      List.map_congr_left (fun r hrr => hkflat r (List.mem_range.mp hrr))
    rw [hco, flatten_map_flatten
      (fun r => (workerSucc units w r).filterMap
        (fun p => (lookupKey p.2 k).map fragFlat))]
    have hmm : (List.range w).map (fun r => (workerSucc units w r).filterMap
        (fun p => (lookupKey p.2 k).map fragFlat)) =
        ((List.range w).map (fun r => workerSucc units w r)).map
          (List.filterMap (fun p => (lookupKey p.2 k).map fragFlat)) := by
      rw [List.map_map]
      rfl
    rw [hmm, ← List.filterMap_flatten]
    rfl
  · have hlen_a : (gatherSpecArr units w T k).flat.length =
        ((processOrder units w).map (fun p => rowsOfKey k p.2)).sum * T k := by
      show (((List.range w).map
        (fun r => (workerKeyArr units w T r k).flat)).flatten).length = _
      rw [List.length_flatten, List.map_map]
      have hco : (List.range w).map
          (List.length ∘ fun r => (workerKeyArr units w T r k).flat) =
          (List.range w).map (fun r => ((workerSucc units w r).map
            (fun p => rowsOfKey k p.2)).sum * T k) :=
        List.map_congr_left (fun r hrr => hlenK k hkK r (List.mem_range.mp hrr))
      rw [hco, List.sum_map_mul_right, hsumPO]
    have hlen_s : (gatherSpecArr units w T "storm").flat.length =
        ((processOrder units w).map (fun p => rowsOfKey k p.2)).sum := by
      show (((List.range w).map
        (fun r => (workerKeyArr units w T r "storm").flat)).flatten).length = _
      rw [List.length_flatten, List.map_map]
      have hco : (List.range w).map
          (List.length ∘ fun r => (workerKeyArr units w T r "storm").flat) =
          (List.range w).map (fun r => ((workerSucc units w r).map
            (fun p => rowsOfKey "inds" p.2)).sum) :=
        List.map_congr_left (fun r hrr => hlenS r (List.mem_range.mp hrr))
      rw [hco, hsumPO]
      congr 1
      apply List.map_congr_left
      intro p hp
      exact (halign p hp).symm
    show (gatherSpecArr units w T k).flat.length / trailingOf T k =
      (gatherSpecArr units w T "storm").flat.length / trailingOf T "storm"
    rw [hlen_a, hlen_s, htrailK k hkK]
    show _ = _ / 1
    rw [Nat.div_one]
    exact Nat.mul_div_cancel _ (hT k hkK)

/-- The two units of the C2 counterexample: both produce a key `"b"`
whose row count (one row of two columns, like `landfall_location`)
differs from the length of their `"inds"` arrays. -/
def c2units : List (Option Record) :=
  [some [("inds", Frag.arrF ⟨[0, 1], 1⟩), ("b", Frag.arrF ⟨[10, 11], 2⟩)],
   some [("inds", Frag.arrF ⟨[5], 1⟩), ("b", Frag.arrF ⟨[20, 21], 2⟩)]]

/-- The consolidated dataset of the C2 counterexample run. -/
def c2res : List (String × Arr) :=
  [("b", ⟨[10, 11, 20, 21], 2⟩), ("inds", ⟨[0, 1, 5], 1⟩),
   ("storm", ⟨[0, 0, 1], 1⟩)]

/-- Counterexample to claim C2: in a single-worker run whose records
carry a key `"b"` with one row each (row counts 1 and 1) next to
`"inds"` arrays with 2 and 1 entries, the gathered `"storm"` array has
3 rows while `"b"` has 2, so the rows of the same unit do not occupy
corresponding positions: row 1 of `"b"` is produced by unit 1 (the spec
row labels are `[0, 1]`), yet `storm[1] = 0`. -/
theorem c2_counterexample :
    createRun c2units 1 = Except.ok c2res
    ∧ specRowLabels c2units 1 "b" = [0, 1]
    ∧ lookupKey c2res "storm" = some ⟨[0, 0, 1], 1⟩
    ∧ lookupKey c2res "b" = some ⟨[10, 11, 20, 21], 2⟩
    ∧ (⟨[10, 11, 20, 21], 2⟩ : Arr).rowCount = 2
    ∧ (⟨[0, 0, 1], 1⟩ : Arr).rowCount = 3
    ∧ ([0, 1] : List Val).getD 1 9 = 1
    ∧ ([0, 0, 1] : List Val).getD 1 9 = 0 :=
  ⟨rfl, rfl, rfl, rfl, rfl, rfl, rfl, rfl⟩

/-- The two units of the C2 witness run: uniform records whose
`"maxele"` rows match the `"inds"` lengths. -/
def c2wunits : List (Option Record) :=
  [some [("inds", Frag.arrF ⟨[0, 1], 1⟩), ("maxele", Frag.arrF ⟨[7, 8], 1⟩)],
   some [("inds", Frag.arrF ⟨[2], 1⟩), ("maxele", Frag.arrF ⟨[9], 1⟩)]]

/-- Witness for the amended C2 on a two-worker, two-unit run. -/
theorem c2_storm_alignment_witness :
    ∃ data s a, createRun c2wunits 2 = Except.ok data
      ∧ lookupKey data "storm" = some s
      ∧ lookupKey data "maxele" = some a
      ∧ s.trailing = 1
      ∧ s.flat = specRowLabels c2wunits 2 "maxele"
      ∧ a.flat = ((processOrder c2wunits 2).filterMap
          (fun p => (lookupKey p.2 "maxele").map fragFlat)).flatten
      ∧ a.rowCount = s.rowCount :=
  c2_storm_alignment c2wunits 2 ["inds", "maxele"] (fun _ => 1) "maxele"
    (by decide) (by decide) (by decide) (by decide) (by decide) (by decide)
    (by decide) (by decide) (by decide) (by decide) (by decide)

end AdcircRom
